import Mathlib

/-!
Verification of the skill-registry store (`src/repository.go`, `src/skill.go`).

The store keeps three relations (categories, skills, parameters) in SQLite and
exposes `Register`, `SearchSkills`/`Search`, `GetSkillDetail` and `GetIndex`.
We embed the committed database state as a `DBState` (rows kept in rowid /
insertion order, as SQLite scans them absent an ORDER BY) and translate each
method's SQL plus Go glue into a Lean function over that state.

The embedded `Register` is the category-name variant (`src/repository.go`
lines 307-375): it auto-provisions the category (`INSERT ... ON CONFLICT(name)
DO NOTHING` then `SELECT id`), upserts the skill by unique name
(`ON CONFLICT(name) DO UPDATE ... RETURNING id`) and replaces the parameter
rows (DELETE by skill_id, then one INSERT per input parameter, in input
order, each getting a fresh rowid).  `RegisterR` is the same function with an
explicit failure oracle: each database call may be made to fail, in which case
the function returns the wrapped error of that step and — because every
mutation happens inside the transaction that is rolled back by the deferred
`tx.Rollback()` — the committed state is unchanged.
-/

deriving instance DecidableEq for Except

namespace SkillStore

/-- A row of the category table (`cats(id, name UNIQUE)` in the embedded
variant; the `categories` variant adds a description column that no query of
the verified surface reads). -/
structure CatRow where
  id : Nat
  name : String
deriving DecidableEq

/-- A row of `skills(id, cat_id REFERENCES cats, name UNIQUE, info)`
(column names `category_id` / `description` in the sibling variant). -/
structure SkillRow where
  id : Nat
  catId : Nat
  name : String
  info : String
deriving DecidableEq

/-- A row of `params(id, skill_id REFERENCES skills, name, type, info, req)`
(`parameters` / `description` / `is_required` in the sibling variant). -/
structure ParamRow where
  id : Nat
  skillId : Nat
  name : String
  type : String
  info : String
  req : Bool
deriving DecidableEq

/-- A parameter as supplied by the caller of `Register` (the `Parameter`
model value; its `ID`/`SkillID` fields are ignored on insert). -/
structure ParamIn where
  name : String
  type : String
  info : String
  required : Bool
deriving DecidableEq

/-- A skill as supplied by the caller of `Register` (the `Skill` model value
of the category-name variant: category name, skill name, description and the
full parameter list). -/
structure SkillIn where
  category : String
  name : String
  info : String
  parameters : List ParamIn
deriving DecidableEq

/-- The committed database state.  Row lists are in rowid order; the `next*`
counters model SQLite's monotone rowid allocation. -/
structure DBState where
  cats : List CatRow
  skills : List SkillRow
  params : List ParamRow
  nextCatId : Nat
  nextSkillId : Nat
  nextParamId : Nat
deriving DecidableEq

/-- A freshly provisioned database (rowids start at 1). -/
def emptyDB : DBState := ⟨[], [], [], 1, 1, 1⟩

/-- `INSERT INTO cats (name) VALUES (?) ON CONFLICT(name) DO NOTHING`. -/
def insertCatIfAbsent (st : DBState) (cname : String) : DBState :=
  if st.cats.any (fun c => c.name = cname) then st
  else { st with cats := st.cats ++ [⟨st.nextCatId, cname⟩],
                 nextCatId := st.nextCatId + 1 }

/-- `SELECT id FROM cats WHERE name = ?` (first row, as `QueryRow` takes). -/
def resolveCatId (st : DBState) (cname : String) : Nat :=
  ((st.cats.find? (fun c => c.name = cname)).map (fun c => c.id)).getD 0

/-- `INSERT INTO skills (cat_id, name, info) VALUES (?,?,?)
ON CONFLICT(name) DO UPDATE SET cat_id = excluded.cat_id,
info = excluded.info RETURNING id`: inserts a fresh row for a fresh name,
otherwise updates the conflicting row in place; returns the row id. -/
def upsertSkill (st : DBState) (catId : Nat) (sname sinfo : String) :
    DBState × Nat :=
  match st.skills.find? (fun s => s.name = sname) with
  | some row =>
    ({ st with skills := st.skills.map (fun s =>
        if s.name = sname then { s with catId := catId, info := sinfo } else s) },
     row.id)
  | none =>
    ({ st with skills := st.skills ++ [⟨st.nextSkillId, catId, sname, sinfo⟩],
               nextSkillId := st.nextSkillId + 1 },
     st.nextSkillId)

/-- The parameter rows created by the insert loop of `Register`: one row per
input parameter, in input order, with consecutive fresh rowids. -/
def mkParams (sid : Nat) : Nat → List ParamIn → List ParamRow
  | _, [] => []
  | i, p :: ps => ⟨i, sid, p.name, p.type, p.info, p.required⟩ :: mkParams sid (i + 1) ps

/-- `DELETE FROM params WHERE skill_id = ?` followed by the parameter insert
loop. -/
def replaceParams (st : DBState) (sid : Nat) (ps : List ParamIn) : DBState :=
  { st with params := st.params.filter (fun p => ¬ p.skillId = sid) ++
              mkParams sid st.nextParamId ps,
            nextParamId := st.nextParamId + ps.length }

/-- `Store.Register` (category-name variant), failure-free path: category
auto-provisioning, skill upsert by unique name, delete-then-insert parameter
replacement, all committed together. -/
def Register (st : DBState) (sk : SkillIn) : DBState :=
  let st1 := insertCatIfAbsent st sk.category
  let cid := resolveCatId st1 sk.category
  let up := upsertSkill st1 cid sk.name sk.info
  replaceParams up.1 up.2 sk.parameters

/-- The database calls made by `Register`, in program order. -/
inductive RegStep where
  | txBegin
  | upsertCat
  | getCatId
  | upsertSkillRow
  | deleteParams
  | prepareInsert
  | insertParam (i : Nat)
  | txCommit
deriving DecidableEq

/-- The error `Register` returns when the given step's database call fails,
with the step-naming wrap the Go code applies (`fmt.Errorf("...: %w", err)`). -/
def stepErr : RegStep → String
  | .txBegin => "begin transaction: database error"
  | .upsertCat => "upsert category: database error"
  | .getCatId => "get category id: database error"
  | .upsertSkillRow => "upsert skill: database error"
  | .deleteParams => "delete params: database error"
  | .prepareInsert => "prepare param insert: database error"
  | .insertParam _ => "insert param: database error"
  | .txCommit => "commit transaction: database error"

/-- `Store.Register` with a failure oracle: `fail step = true` makes that
database call fail.  The first component is the call's result, the second the
committed state observable afterwards.  All mutations run on the transaction's
pending state; every error path returns before `tx.Commit()`, so the deferred
`tx.Rollback()` leaves the committed state untouched.  The prepare step is
only reached when the input has parameters (the Go code prepares inside
`if len(skill.Parameters) > 0`), and the insert loop stops at the first
failing parameter. -/
def RegisterR (fail : RegStep → Bool) (st : DBState) (sk : SkillIn) :
    Except String Unit × DBState :=
  if fail .txBegin then (.error (stepErr .txBegin), st) else
  if fail .upsertCat then (.error (stepErr .upsertCat), st) else
  let st1 := insertCatIfAbsent st sk.category
  if fail .getCatId then (.error (stepErr .getCatId), st) else
  let cid := resolveCatId st1 sk.category
  if fail .upsertSkillRow then (.error (stepErr .upsertSkillRow), st) else
  let up := upsertSkill st1 cid sk.name sk.info
  if fail .deleteParams then (.error (stepErr .deleteParams), st) else
  if 0 < sk.parameters.length ∧ fail .prepareInsert then
    (.error (stepErr .prepareInsert), st) else
  match (List.range sk.parameters.length).find? (fun i => fail (.insertParam i)) with
  | some i => (.error (stepErr (.insertParam i)), st)
  | none =>
    if fail .txCommit then (.error (stepErr .txCommit), st)
    else (.ok (), replaceParams up.1 up.2 sk.parameters)

/-- The skill value `GetSkillDetail` builds while scanning the joined rows. -/
structure SkillOut where
  id : Nat
  catId : Nat
  name : String
  info : String
  params : List ParamRow
deriving DecidableEq

/-- The rows of `SELECT s.*, p.* FROM skills s LEFT JOIN parameters p ON
s.id = p.skill_id WHERE s.name = ?`: every matching skill paired with each of
its parameter rows, or with `none` when it has no parameters.  No ORDER BY is
issued, so rows come in rowid (insertion) order. -/
def detailRows (st : DBState) (n : String) : List (SkillRow × Option ParamRow) :=
  (st.skills.filter (fun s => s.name = n)).flatMap (fun s =>
    let ps := st.params.filter (fun p => p.skillId = s.id)
    if ps.isEmpty then [(s, none)] else ps.map (fun p => (s, some p)))

/-- One iteration of the row-scan loop of `GetSkillDetail`: (re)writes the
skill columns into the accumulator and appends the parameter when the joined
parameter columns are non-NULL. -/
def scanRow (acc : Option SkillOut) (r : SkillRow × Option ParamRow) :
    Option SkillOut :=
  some { id := r.1.id, catId := r.1.catId, name := r.1.name, info := r.1.info,
         params := (match acc with | none => [] | some sk => sk.params) ++
           r.2.toList }

/-- `Store.GetSkillDetail`: scans the joined rows; if none were seen the
skill does not exist and a NotFound error naming the query is returned. -/
def GetSkillDetail (st : DBState) (n : String) : Except String SkillOut :=
  match (detailRows st n).foldl scanRow none with
  | none => .error ("skill not found: " ++ n)
  | some sk => .ok sk

/-- SQLite's ASCII-only case folding, as applied by the default `LIKE`:
`A`-`Z` (codes 65-90) map to `a`-`z`, everything else is untouched. -/
def foldChar (c : Char) : Char :=
  if 65 ≤ c.toNat ∧ c.toNat ≤ 90 then Char.ofNat (c.toNat + 32) else c

/-- SQLite `LIKE` pattern matching (default, no ESCAPE): `%` matches any
sequence, `_` any single character, anything else one character up to ASCII
case folding. -/
def likeMatch : List Char → List Char → Bool
  | [], t => t.isEmpty
  | p :: ps, t =>
    if p = '%' then t.tails.any (fun t2 => likeMatch ps t2)
    else
      match t with
      | [] => false
      | d :: t2 => (if p = '_' then true else foldChar p = foldChar d) && likeMatch ps t2

/-- `column LIKE ?` with the bound value `"%" + query + "%"`, as both search
functions build it. -/
def likeQuery (q t : String) : Bool :=
  likeMatch ('%' :: (q.data ++ ['%'])) t.data

/-- `Store.SearchSkills`: `SELECT id, category_id, name, description FROM
skills WHERE name LIKE ? OR description LIKE ?`. -/
def SearchSkills (st : DBState) (q : String) : List SkillRow :=
  st.skills.filter (fun s => likeQuery q s.name || likeQuery q s.info)

/-- A scalar JSON value appearing in the catalog view's objects. -/
inductive JField where
  | s (v : String)
  | b (v : Bool)
deriving DecidableEq

/-- `json_object('n', p.name, 't', p.type, 'r', CASE WHEN p.req THEN
json('true') ELSE json('false') END, 'd', p.info)` — an object as an ordered
field list. -/
def encodeParam (p : ParamRow) : List (String × JField) :=
  [("n", .s p.name), ("t", .s p.type), ("r", .b p.req), ("d", .s p.info)]

/-- The `args` column of the catalog view for skill id `sid`:
`json_group_array` over that skill's parameter rows, in rowid order. -/
def argsOf (st : DBState) (sid : Nat) : List (List (String × JField)) :=
  (st.params.filter (fun p => p.skillId = sid)).map encodeParam

/-- The string field stored under key `k`, defaulting to the empty string. -/
def getStr (o : List (String × JField)) (k : String) : String :=
  match o.find? (fun f => f.1 = k) with
  | some (_, .s v) => v
  | _ => ""

/-- The boolean field stored under key `k`, defaulting to false. -/
def getBool (o : List (String × JField)) (k : String) : Bool :=
  match o.find? (fun f => f.1 = k) with
  | some (_, .b v) => v
  | _ => false

/-- Modelled from the spec: the repository's abbreviated-key `Skill` /
`Parameter` model types for the catalog variant (fields `Category`, `Info`,
`Required` with JSON tags) are not among the source files — only their uses
in `Search` and the tests are.  Spec section 6 fixes the decoding:
`parameters_json` objects carry `{n: name, t: type, d: description,
r: required}`, so `json.Unmarshal` maps key `n` to the parameter name, `t` to
its type, `d` to its description and `r` to its required flag. -/
def decodeParam (o : List (String × JField)) : ParamIn :=
  ⟨getStr o "n", getStr o "t", getStr o "d", getBool o "r"⟩

/-- A row of the `catalog` view as `Store.Search` scans it: category name,
skill name, skill description and the decoded parameter array. -/
structure CatalogHit where
  category : String
  name : String
  info : String
  parameters : List ParamIn
deriving DecidableEq

/-- All rows of `CREATE VIEW catalog AS SELECT c.name, s.name, s.info, (...)
FROM skills s JOIN cats c ON s.cat_id = c.id`. -/
def catalogRows (st : DBState) : List CatalogHit :=
  st.skills.flatMap (fun s =>
    (st.cats.filter (fun c => c.id = s.catId)).map (fun c =>
      ⟨c.name, s.name, s.info, (argsOf st s.id).map decodeParam⟩))

/-- `Store.Search`: `SELECT cat, name, info, args FROM catalog WHERE name
LIKE ? OR info LIKE ?`, decoding `args` into the parameter list. -/
def Search (st : DBState) (q : String) : List CatalogHit :=
  (catalogRows st).filter (fun h => likeQuery q h.name || likeQuery q h.info)

/-- Is the first character list a prefix of the second? -/
def prefB : List Char → List Char → Bool
  | [], _ => true
  | _ :: _, [] => false
  | a :: as, b :: bs => a = b && prefB as bs

/-- Is the first character list a contiguous sublist of the second? -/
def subB (q t : List Char) : Bool :=
  t.tails.any (fun t2 => prefB q t2)

/-- Case-insensitive (ASCII) substring containment — the spec's matching
predicate for search queries. -/
def ciContains (t q : String) : Bool :=
  subB (q.data.map foldChar) (t.data.map foldChar)

/-- Lexicographic strictly-less on character lists by code point.  This is the
order SQLite's default `BINARY` collation (`ORDER BY` on TEXT) and Go's
`sort.Strings` both use (UTF-8 byte order coincides with code-point order). -/
def lexLtB : List Char → List Char → Bool
  | [], [] => false
  | [], _ :: _ => true
  | _ :: _, [] => false
  | a :: as, b :: bs => a.toNat < b.toNat || (a = b && lexLtB as bs)

/-- Alphabetical (lexicographic) strict order on strings. -/
def strLt (a b : String) : Prop := lexLtB a.data b.data = true

/-- Alphabetical (lexicographic) order on strings. -/
def strLe (a b : String) : Prop := lexLtB b.data a.data = false

instance : DecidableRel strLt := fun a b => by
  unfold strLt; infer_instance

instance : DecidableRel strLe := fun a b => by
  unfold strLe; infer_instance

/-- The order `ORDER BY c.name, s.name` imposes on the joined index rows. -/
def pairLe (a b : String × String) : Prop :=
  strLt a.1 b.1 ∨ (a.1 = b.1 ∧ strLe a.2 b.2)

instance : DecidableRel pairLe := fun a b => by
  unfold pairLe; infer_instance

/-- The `(category name, skill name)` pairs of `SELECT c.name, s.name FROM
skills s JOIN cats c ON s.cat_id = c.id`, before ordering. -/
def joinPairs (st : DBState) : List (String × String) :=
  st.skills.flatMap (fun s =>
    (st.cats.filter (fun c => c.id = s.catId)).map (fun c => (c.name, s.name)))

/-- `catMap[cat] = append(catMap[cat], skill)` on an association list (the Go
map, with insertion order made explicit; the Go code never reads key order —
it sorts the keys afterwards). -/
def insertAppend (m : List (String × List String)) (c v : String) :
    List (String × List String) :=
  match m with
  | [] => [(c, [v])]
  | (k, vs) :: rest =>
    if k = c then (k, vs ++ [v]) :: rest else (k, vs) :: insertAppend rest c v

/-- `catMap[c]` (missing keys read as the empty slice). -/
def lookupGrouped (m : List (String × List String)) (c : String) : List String :=
  ((m.find? (fun kv => kv.1 = c)).map (fun kv => kv.2)).getD []

/-- `Store.GetIndex`: scans the join ordered by `(c.name, s.name)`, groups
the rows by category into `catMap`, sorts the category names, and renders
`cat1(skillA,skillB), cat2(skillC)`. -/
def GetIndex (st : DBState) : String :=
  let rows := List.insertionSort pairLe (joinPairs st)
  let catMap := rows.foldl (fun m r => insertAppend m r.1 r.2) []
  let cats := List.insertionSort strLe (catMap.map (fun kv => kv.1))
  String.intercalate ", " (cats.map (fun c =>
    c ++ "(" ++ String.intercalate "," (lookupGrouped catMap c) ++ ")"))

/-- The index string as the spec words it: the distinct category names of the
join, sorted alphabetically, each followed by its skill names sorted
alphabetically, `", "` between categories, bare commas between skills. -/
def specIndex (st : DBState) : String :=
  let pairs := joinPairs st
  let cats := List.insertionSort strLe (pairs.map (fun r => r.1)).dedup
  String.intercalate ", " (cats.map (fun c =>
    c ++ "(" ++ String.intercalate ","
      (List.insertionSort strLe ((pairs.filter (fun r => r.1 = c)).map (fun r => r.2))) ++ ")"))

/-- Well-formedness of a committed state: the uniqueness the schema enforces
(unique rowids, `UNIQUE` on category and skill names) plus rowid counters
ahead of every allocated rowid.  `emptyDB` satisfies it and `Register`
preserves it. -/
def WF (st : DBState) : Prop :=
  (st.cats.map (fun c => c.id)).Nodup ∧
  (st.cats.map (fun c => c.name)).Nodup ∧
  (st.skills.map (fun s => s.id)).Nodup ∧
  (st.skills.map (fun s => s.name)).Nodup ∧
  (st.params.map (fun p => p.id)).Nodup ∧
  (∀ c ∈ st.cats, c.id < st.nextCatId) ∧
  (∀ s ∈ st.skills, s.id < st.nextSkillId) ∧
  (∀ p ∈ st.params, p.id < st.nextParamId)

instance (st : DBState) : Decidable (WF st) := by
  unfold WF; infer_instance

/-- Sample inputs mirroring `TestRegisterAndGetIndex`. -/
def skRead : SkillIn :=
  ⟨"files", "read", "Read file content", [⟨"path", "string", "File path", true⟩]⟩

def skWrite : SkillIn := ⟨"files", "write", "Write to file", []⟩

def skPing : SkillIn := ⟨"net", "ping", "Ping host", []⟩

/-- The three test skills registered in source order. -/
def stA : DBState := Register (Register (Register emptyDB skRead) skWrite) skPing

/-- The same three skills registered in the opposite order. -/
def stB : DBState := Register (Register (Register emptyDB skPing) skWrite) skRead

/-! ### Order facts about the lexicographic comparison -/

theorem char_toNat_inj {a b : Char} : a.toNat = b.toNat ↔ a = b :=
  ⟨fun h => Char.ext (UInt32.toNat.inj h), fun h => h ▸ rfl⟩

theorem string_data_inj {a b : String} (h : a.data = b.data) : a = b := by
  cases a; cases b; exact congrArg String.mk h

theorem lexLtB_irrefl : ∀ as, lexLtB as as = false
  | [] => rfl
  | a :: as => by simp [lexLtB, lexLtB_irrefl as]

theorem lexLtB_asymm : ∀ as bs, lexLtB as bs = true → lexLtB bs as = false
  | [], [], h => by simp [lexLtB] at h
  | [], _ :: _, _ => rfl
  | _ :: _, [], h => by simp [lexLtB] at h
  | a :: as, b :: bs, h => by
    simp only [lexLtB, Bool.or_eq_true, Bool.and_eq_true, decide_eq_true_eq] at h
    simp only [lexLtB, Bool.or_eq_false_iff, Bool.and_eq_false_iff,
      decide_eq_false_iff_not]
    rcases h with h | ⟨rfl, h⟩
    · refine ⟨by omega, Or.inl fun e => ?_⟩
      subst e
      omega
    · exact ⟨by omega, Or.inr (lexLtB_asymm as bs h)⟩

theorem lexLtB_trans : ∀ as bs cs, lexLtB as bs = true → lexLtB bs cs = true →
    lexLtB as cs = true
  | [], [], _, h, _ => by simp [lexLtB] at h
  | [], _ :: _, [], _, h2 => by simp [lexLtB] at h2
  | [], _ :: _, _ :: _, _, _ => rfl
  | _ :: _, [], _, h, _ => by simp [lexLtB] at h
  | _ :: _, _ :: _, [], _, h2 => by simp [lexLtB] at h2
  | a :: as, b :: bs, c :: cs, h, h2 => by
    simp only [lexLtB, Bool.or_eq_true, Bool.and_eq_true, decide_eq_true_eq] at h h2 ⊢
    rcases h with h | ⟨rfl, h⟩
    · rcases h2 with h2 | ⟨rfl, _⟩
      · exact Or.inl (h.trans h2)
      · exact Or.inl h
    · rcases h2 with h2 | ⟨rfl, h2⟩
      · exact Or.inl h2
      · exact Or.inr ⟨rfl, lexLtB_trans as bs cs h h2⟩

theorem lexLtB_connex : ∀ as bs, lexLtB as bs = false →
    lexLtB bs as = true ∨ as = bs
  | [], [], _ => Or.inr rfl
  | [], _ :: _, h => by simp [lexLtB] at h
  | _ :: _, [], _ => Or.inl rfl
  | a :: as, b :: bs, h => by
    simp only [lexLtB, Bool.or_eq_false_iff, Bool.and_eq_false_iff,
      decide_eq_false_iff_not] at h
    obtain ⟨h1, h2⟩ := h
    rcases Nat.lt_trichotomy b.toNat a.toNat with hlt | heq | hgt
    · exact Or.inl (by simp [lexLtB, hlt])
    · have hab : a = b := char_toNat_inj.mp heq.symm
      subst hab
      rcases h2 with h2 | h2
      · exact absurd rfl h2
      · rcases lexLtB_connex as bs h2 with h3 | h3
        · exact Or.inl (by simp [lexLtB, h3])
        · exact Or.inr (by rw [h3])
    · exact absurd hgt h1

instance : IsTotal String strLe where
  total a b := by
    unfold strLe
    rcases h : lexLtB b.data a.data with _ | _
    · exact Or.inl rfl
    · exact Or.inr (lexLtB_asymm _ _ h)

instance : IsTrans String strLe where
  trans a b c hab hbc := by
    unfold strLe at *
    rcases lexLtB_connex _ _ hbc with h | h
    · rcases hca : lexLtB c.data a.data with _ | _
      · rfl
      · exact absurd (lexLtB_trans _ _ _ h hca) (by simp [hab])
    · rw [h, hab]

instance : IsAntisymm String strLe where
  antisymm a b hab hba := by
    unfold strLe at *
    rcases lexLtB_connex _ _ hab with h | h
    · exact absurd h (by simp [hba])
    · exact (string_data_inj h).symm

theorem strLt_trans {a b c : String} (h : strLt a b) (h2 : strLt b c) : strLt a c :=
  lexLtB_trans _ _ _ h h2

theorem strLt_asymm {a b : String} (h : strLt a b) : ¬ strLt b a := by
  unfold strLt at *
  simp [lexLtB_asymm _ _ h]

theorem strLt_irrefl (a : String) : ¬ strLt a a := by
  unfold strLt
  simp [lexLtB_irrefl]

theorem strLt_trichotomy (a b : String) : strLt a b ∨ a = b ∨ strLt b a := by
  unfold strLt
  rcases h : lexLtB a.data b.data with _ | _
  · rcases lexLtB_connex _ _ h with h2 | h2
    · exact Or.inr (Or.inr h2)
    · exact Or.inr (Or.inl (string_data_inj h2))
  · exact Or.inl rfl

instance : IsTotal (String × String) pairLe where
  total a b := by
    rcases strLt_trichotomy a.1 b.1 with h | h | h
    · exact Or.inl (Or.inl h)
    · rcases IsTotal.total (r := strLe) a.2 b.2 with h2 | h2
      · exact Or.inl (Or.inr ⟨h, h2⟩)
      · exact Or.inr (Or.inr ⟨h.symm, h2⟩)
    · exact Or.inr (Or.inl h)

instance : IsTrans (String × String) pairLe where
  trans a b c hab hbc := by
    rcases hab with h1 | ⟨e1, l1⟩
    · rcases hbc with h2 | ⟨e2, _⟩
      · exact Or.inl (strLt_trans h1 h2)
      · exact Or.inl (e2 ▸ h1)
    · rcases hbc with h2 | ⟨e2, l2⟩
      · exact Or.inl (e1 ▸ h2)
      · exact Or.inr ⟨e1.trans e2, Trans.trans l1 l2⟩

instance : IsAntisymm (String × String) pairLe where
  antisymm a b hab hba := by
    rcases hab with h1 | ⟨e1, l1⟩
    · rcases hba with h2 | ⟨e2, _⟩
      · exact absurd h2 (strLt_asymm h1)
      · exact absurd h1 (e2 ▸ strLt_irrefl _)
    · rcases hba with h2 | ⟨e2, l2⟩
      · exact absurd h2 (e1 ▸ strLt_irrefl _)
      · exact Prod.ext e1 (antisymm l1 l2)

/-! ### Generic helpers about rows keyed by a unique field -/

theorem filter_eq_singleton_of_nodup {α β : Type} [DecidableEq β] (f : α → β)
    {l : List α} (hnd : (l.map f).Nodup) {a : α} (ha : a ∈ l) :
    l.filter (fun x => f x = f a) = [a] := by
  induction l with
  | nil => cases ha
  | cons b l ih =>
    simp only [List.map_cons, List.nodup_cons] at hnd
    obtain ⟨hb, hnd2⟩ := hnd
    rcases List.mem_cons.mp ha with rfl | ha2
    · have hnil : l.filter (fun x => f x = f a) = [] := by
        rw [List.filter_eq_nil_iff]
        intro x hx
        simp only [decide_eq_true_eq]
        exact fun e => hb (e ▸ List.mem_map_of_mem f hx)
      simp [List.filter_cons, hnil]
    · have hne : ¬ (f b = f a) := fun e => hb (e ▸ List.mem_map_of_mem f ha2)
      simp [List.filter_cons, hne, ih hnd2 ha2]

theorem eq_of_nodup_key {α β : Type} [DecidableEq β] (f : α → β)
    {l : List α} (hnd : (l.map f).Nodup) {a b : α} (ha : a ∈ l) (hb : b ∈ l)
    (h : f b = f a) : b = a := by
  have hs := filter_eq_singleton_of_nodup f hnd ha
  have : b ∈ l.filter (fun x => f x = f a) := by
    rw [List.mem_filter]
    exact ⟨hb, by simpa using h⟩
  rw [hs] at this
  simpa using this

/-! ### The parameter rows written by the insert loop -/

theorem mkParams_length (sid : Nat) : ∀ (i : Nat) (ps : List ParamIn),
    (mkParams sid i ps).length = ps.length
  | _, [] => rfl
  | i, _ :: ps => by simp [mkParams, mkParams_length sid (i + 1) ps]

theorem mkParams_skillId (sid : Nat) : ∀ (i : Nat) (ps : List ParamIn),
    ∀ q ∈ mkParams sid i ps, q.skillId = sid
  | _, [], _, hq => by cases hq
  | i, p :: ps, q, hq => by
    rcases List.mem_cons.mp hq with rfl | hq2
    · rfl
    · exact mkParams_skillId sid (i + 1) ps q hq2

theorem mkParams_id_bounds (sid : Nat) : ∀ (i : Nat) (ps : List ParamIn),
    ∀ q ∈ mkParams sid i ps, i ≤ q.id ∧ q.id < i + ps.length
  | _, [], _, hq => by cases hq
  | i, p :: ps, q, hq => by
    rcases List.mem_cons.mp hq with rfl | hq2
    · simp
    · have := mkParams_id_bounds sid (i + 1) ps q hq2
      constructor <;> [omega; (simp only [List.length_cons]; omega)]

theorem mkParams_ids_nodup (sid : Nat) : ∀ (i : Nat) (ps : List ParamIn),
    ((mkParams sid i ps).map (fun p => p.id)).Nodup
  | _, [] => List.nodup_nil
  | i, p :: ps => by
    simp only [mkParams, List.map_cons, List.nodup_cons]
    refine ⟨fun hmem => ?_, mkParams_ids_nodup sid (i + 1) ps⟩
    obtain ⟨q, hq, hid⟩ := List.mem_map.mp hmem
    have := mkParams_id_bounds sid (i + 1) ps q hq
    omega

theorem mkParams_proj (sid : Nat) : ∀ (i : Nat) (ps : List ParamIn),
    (mkParams sid i ps).map (fun p => (p.name, p.type, p.info, p.req)) =
      ps.map (fun p => (p.name, p.type, p.info, p.required))
  | _, [] => rfl
  | i, p :: ps => by simp [mkParams, mkParams_proj sid (i + 1) ps]

/-! ### Component lemmas about the steps of Register -/

theorem insertCat_skills (st : DBState) (cname : String) :
    (insertCatIfAbsent st cname).skills = st.skills := by
  unfold insertCatIfAbsent; split <;> rfl

theorem insertCat_params (st : DBState) (cname : String) :
    (insertCatIfAbsent st cname).params = st.params := by
  unfold insertCatIfAbsent; split <;> rfl

theorem insertCat_nextSkillId (st : DBState) (cname : String) :
    (insertCatIfAbsent st cname).nextSkillId = st.nextSkillId := by
  unfold insertCatIfAbsent; split <;> rfl

theorem insertCat_nextParamId (st : DBState) (cname : String) :
    (insertCatIfAbsent st cname).nextParamId = st.nextParamId := by
  unfold insertCatIfAbsent; split <;> rfl

theorem insertCat_of_present {st : DBState} {cname : String}
    (h : st.cats.any (fun c => c.name = cname) = true) :
    insertCatIfAbsent st cname = st := by
  unfold insertCatIfAbsent
  simp [h]

theorem insertCat_of_absent {st : DBState} {cname : String}
    (h : st.cats.any (fun c => c.name = cname) = false) :
    insertCatIfAbsent st cname =
      { st with cats := st.cats ++ [⟨st.nextCatId, cname⟩],
                nextCatId := st.nextCatId + 1 } := by
  unfold insertCatIfAbsent
  simp [h]

theorem insertCat_resolve (st : DBState) (cname : String) :
    ∃ k ∈ (insertCatIfAbsent st cname).cats, k.name = cname ∧
      resolveCatId (insertCatIfAbsent st cname) cname = k.id := by
  rcases h : st.cats.any (fun c => c.name = cname) with _ | _
  · rw [insertCat_of_absent h]
    have hnone : st.cats.find? (fun c => decide (c.name = cname)) = none := by
      rw [List.find?_eq_none]
      intro x hx
      have := List.any_eq_false.mp h x hx
      simpa using this
    refine ⟨⟨st.nextCatId, cname⟩, ?_, rfl, ?_⟩
    · simp
    · simp [resolveCatId, List.find?_append, hnone]
  · rw [insertCat_of_present h]
    obtain ⟨k, hk, hname⟩ := List.any_eq_true.mp h
    have hsome : (st.cats.find? (fun c => decide (c.name = cname))).isSome := by
      rw [List.find?_isSome]
      exact ⟨k, hk, hname⟩
    obtain ⟨k2, hk2⟩ := Option.isSome_iff_exists.mp hsome
    refine ⟨k2, List.mem_of_find?_eq_some hk2, ?_, ?_⟩
    · have := List.find?_some hk2
      simpa using this
    · simp [resolveCatId, hk2]

theorem upsertSkill_cats (st : DBState) (cid : Nat) (n i : String) :
    (upsertSkill st cid n i).1.cats = st.cats := by
  rcases h : st.skills.find? (fun s => s.name = n) with _ | row <;>
    simp [upsertSkill, h]

theorem upsertSkill_params (st : DBState) (cid : Nat) (n i : String) :
    (upsertSkill st cid n i).1.params = st.params := by
  rcases h : st.skills.find? (fun s => s.name = n) with _ | row <;>
    simp [upsertSkill, h]

theorem upsertSkill_nextParamId (st : DBState) (cid : Nat) (n i : String) :
    (upsertSkill st cid n i).1.nextParamId = st.nextParamId := by
  rcases h : st.skills.find? (fun s => s.name = n) with _ | row <;>
    simp [upsertSkill, h]

theorem upsertSkill_nextCatId (st : DBState) (cid : Nat) (n i : String) :
    (upsertSkill st cid n i).1.nextCatId = st.nextCatId := by
  rcases h : st.skills.find? (fun s => s.name = n) with _ | row <;>
    simp [upsertSkill, h]

theorem replaceParams_cats (st : DBState) (sid : Nat) (ps : List ParamIn) :
    (replaceParams st sid ps).cats = st.cats := rfl

theorem replaceParams_skills (st : DBState) (sid : Nat) (ps : List ParamIn) :
    (replaceParams st sid ps).skills = st.skills := rfl

theorem replaceParams_params (st : DBState) (sid : Nat) (ps : List ParamIn) :
    (replaceParams st sid ps).params =
      st.params.filter (fun p => ¬ p.skillId = sid) ++ mkParams sid st.nextParamId ps := rfl

theorem replaceParams_nextSkillId (st : DBState) (sid : Nat) (ps : List ParamIn) :
    (replaceParams st sid ps).nextSkillId = st.nextSkillId := rfl

theorem replaceParams_nextParamId (st : DBState) (sid : Nat) (ps : List ParamIn) :
    (replaceParams st sid ps).nextParamId = st.nextParamId + ps.length := rfl

theorem Register_cats (st : DBState) (sk : SkillIn) :
    (Register st sk).cats = (insertCatIfAbsent st sk.category).cats := by
  unfold Register
  rw [replaceParams_cats, upsertSkill_cats]

theorem Register_nextCatId (st : DBState) (sk : SkillIn) :
    (Register st sk).nextCatId = (insertCatIfAbsent st sk.category).nextCatId := by
  unfold Register
  show (upsertSkill _ _ _ _).1.nextCatId = _
  rw [upsertSkill_nextCatId]

theorem upsertSkill_of_found {st : DBState} {cid : Nat} {n i : String} {row : SkillRow}
    (h : st.skills.find? (fun s => s.name = n) = some row) :
    upsertSkill st cid n i =
      ({ st with skills := st.skills.map (fun s =>
          if s.name = n then { s with catId := cid, info := i } else s) },
       row.id) := by
  simp [upsertSkill, h]

theorem upsertSkill_of_missing {st : DBState} {cid : Nat} {n i : String}
    (h : st.skills.find? (fun s => s.name = n) = none) :
    upsertSkill st cid n i =
      ({ st with skills := st.skills ++ [⟨st.nextSkillId, cid, n, i⟩],
                 nextSkillId := st.nextSkillId + 1 },
       st.nextSkillId) := by
  simp [upsertSkill, h]

theorem Register_eq (st : DBState) (sk : SkillIn) :
    Register st sk =
      replaceParams
        (upsertSkill (insertCatIfAbsent st sk.category)
          (resolveCatId (insertCatIfAbsent st sk.category) sk.category)
          sk.name sk.info).1
        (upsertSkill (insertCatIfAbsent st sk.category)
          (resolveCatId (insertCatIfAbsent st sk.category) sk.category)
          sk.name sk.info).2
        sk.parameters := rfl

theorem upd_names (l : List SkillRow) (cid : Nat) (n i : String) :
    (l.map (fun s => if s.name = n then { s with catId := cid, info := i } else s)).map
      (fun s => s.name) = l.map (fun s => s.name) := by
  rw [List.map_map]
  have h : ((fun s : SkillRow => s.name) ∘
      (fun s => if s.name = n then { s with catId := cid, info := i } else s)) =
      fun s : SkillRow => s.name := by
    funext s
    dsimp [Function.comp]
    split <;> rfl
  rw [h]

theorem upd_ids (l : List SkillRow) (cid : Nat) (n i : String) :
    (l.map (fun s => if s.name = n then { s with catId := cid, info := i } else s)).map
      (fun s => s.id) = l.map (fun s => s.id) := by
  rw [List.map_map]
  have h : ((fun s : SkillRow => s.id) ∘
      (fun s => if s.name = n then { s with catId := cid, info := i } else s)) =
      fun s : SkillRow => s.id := by
    funext s
    dsimp [Function.comp]
    split <;> rfl
  rw [h]

/-- The one-call characterization of `Register` on a well-formed state: the
category row it resolves, the unique updated-or-inserted skill row, the
untouched-versus-appended shape of the skills table, and the replaced
parameter rows. -/
theorem Register_master (st : DBState) (sk : SkillIn) (hwf : WF st) :
    ∃ sid k,
      k ∈ (Register st sk).cats ∧ k.name = sk.category ∧
      (Register st sk).skills.filter (fun s => s.name = sk.name) =
        [⟨sid, k.id, sk.name, sk.info⟩] ∧
      (st.skills.any (fun s => s.name = sk.name) = true →
        (Register st sk).skills.map (fun s => s.name) =
            st.skills.map (fun s => s.name) ∧
        (Register st sk).skills.map (fun s => s.id) =
            st.skills.map (fun s => s.id) ∧
        (Register st sk).nextSkillId = st.nextSkillId) ∧
      (st.skills.any (fun s => s.name = sk.name) = false →
        (Register st sk).skills = st.skills ++ [⟨sid, k.id, sk.name, sk.info⟩] ∧
        sid = st.nextSkillId ∧
        (Register st sk).nextSkillId = st.nextSkillId + 1) ∧
      (∀ row ∈ st.skills, row.name = sk.name → row.id = sid) ∧
      (Register st sk).params =
        st.params.filter (fun p => ¬ p.skillId = sid) ++
          mkParams sid st.nextParamId sk.parameters ∧
      (Register st sk).nextParamId = st.nextParamId + sk.parameters.length := by
  obtain ⟨k, hk_mem, hk_name, hk_res⟩ := insertCat_resolve st sk.category
  have h_sk1 := insertCat_skills st sk.category
  have h_pr1 := insertCat_params st sk.category
  have h_ns1 := insertCat_nextSkillId st sk.category
  have h_np1 := insertCat_nextParamId st sk.category
  rcases hfind : st.skills.find? (fun s => s.name = sk.name) with _ | row
  · -- fresh name: the row is inserted
    have hfind1 : (insertCatIfAbsent st sk.category).skills.find?
        (fun s => s.name = sk.name) = none := by rw [h_sk1]; exact hfind
    have hany : st.skills.any (fun s => s.name = sk.name) = false := by
      rw [List.any_eq_false]
      intro x hx
      simpa using List.find?_eq_none.mp hfind x hx
    have hreg : Register st sk =
        replaceParams
          { insertCatIfAbsent st sk.category with
              skills := st.skills ++ [⟨st.nextSkillId, k.id, sk.name, sk.info⟩],
              nextSkillId := st.nextSkillId + 1 }
          st.nextSkillId sk.parameters := by
      rw [Register_eq, hk_res, upsertSkill_of_missing hfind1, h_sk1, h_ns1]
    refine ⟨st.nextSkillId, k, ?_, hk_name, ?_, ?_, ?_, ?_, ?_, ?_⟩
    · rw [Register_cats]; exact hk_mem
    · rw [hreg, replaceParams_skills]
      dsimp only
      rw [List.filter_append]
      have hnil : st.skills.filter (fun s => s.name = sk.name) = [] := by
        rw [List.filter_eq_nil_iff]
        intro x hx
        simpa using List.find?_eq_none.mp hfind x hx
      rw [hnil]
      simp
    · intro h
      rw [hany] at h
      cases h
    · intro _
      refine ⟨?_, rfl, ?_⟩
      · rw [hreg, replaceParams_skills]
      · rw [hreg, replaceParams_nextSkillId]
    · intro row hrow hname
      have := List.find?_eq_none.mp hfind row hrow
      simp [hname] at this
    · rw [hreg, replaceParams_params]
      dsimp only
      rw [h_pr1, h_np1]
    · rw [hreg, replaceParams_nextParamId]
      dsimp only
      rw [h_np1]
  · -- name collision: the existing row is updated in place
    have hfind1 : (insertCatIfAbsent st sk.category).skills.find?
        (fun s => s.name = sk.name) = some row := by rw [h_sk1]; exact hfind
    have hrow_mem : row ∈ st.skills := List.mem_of_find?_eq_some hfind
    have hrow_name : row.name = sk.name := by simpa using List.find?_some hfind
    have hany : st.skills.any (fun s => s.name = sk.name) = true :=
      List.any_eq_true.mpr ⟨row, hrow_mem, by simp [hrow_name]⟩
    have hreg : Register st sk =
        replaceParams
          { insertCatIfAbsent st sk.category with
              skills := st.skills.map (fun s =>
                if s.name = sk.name then { s with catId := k.id, info := sk.info } else s) }
          row.id sk.parameters := by
      rw [Register_eq, hk_res, upsertSkill_of_found hfind1, h_sk1]
    have hnames : (Register st sk).skills.map (fun s => s.name) =
        st.skills.map (fun s => s.name) := by
      rw [hreg, replaceParams_skills]
      dsimp only
      rw [upd_names]
    refine ⟨row.id, k, ?_, hk_name, ?_, ?_, ?_, ?_, ?_, ?_⟩
    · rw [Register_cats]; exact hk_mem
    · have hnd : ((st.skills.map (fun s =>
          if s.name = sk.name then { s with catId := k.id, info := sk.info } else s)).map
            (fun s => s.name)).Nodup := by
        rw [upd_names]
        exact hwf.2.2.2.1
      have hmem_u : (if row.name = sk.name then
            { row with catId := k.id, info := sk.info } else row) ∈
          st.skills.map (fun s =>
            if s.name = sk.name then { s with catId := k.id, info := sk.info } else s) :=
        List.mem_map_of_mem _ hrow_mem
      have hu_eq : (if row.name = sk.name then
            { row with catId := k.id, info := sk.info } else row) =
          (⟨row.id, k.id, sk.name, sk.info⟩ : SkillRow) := by
        rw [if_pos hrow_name]
        show ({ id := row.id, catId := k.id, name := row.name, info := sk.info } : SkillRow) = _
        rw [hrow_name]
      rw [hu_eq] at hmem_u
      have hfil := filter_eq_singleton_of_nodup (fun s : SkillRow => s.name) hnd hmem_u
      rw [hreg, replaceParams_skills]
      dsimp only
      exact hfil
    · intro _
      refine ⟨hnames, ?_, ?_⟩
      · rw [hreg, replaceParams_skills]
        dsimp only
        rw [upd_ids]
      · rw [hreg, replaceParams_nextSkillId]
        dsimp only
        rw [h_ns1]
    · intro h
      rw [hany] at h
      cases h
    · intro row2 hrow2 hname2
      have : row2 = row := eq_of_nodup_key (fun s : SkillRow => s.name)
        hwf.2.2.2.1 hrow_mem hrow2
        (by show row2.name = row.name; rw [hname2, hrow_name])
      rw [this]
    · rw [hreg, replaceParams_params]
      dsimp only
      rw [h_pr1, h_np1]
    · rw [hreg, replaceParams_nextParamId]
      dsimp only
      rw [h_np1]

theorem Register_cats_present {st : DBState} {sk : SkillIn}
    (h : st.cats.any (fun c => c.name = sk.category) = true) :
    (Register st sk).cats = st.cats ∧ (Register st sk).nextCatId = st.nextCatId := by
  rw [Register_cats, Register_nextCatId, insertCat_of_present h]
  exact ⟨rfl, rfl⟩

theorem Register_cats_absent {st : DBState} {sk : SkillIn}
    (h : st.cats.any (fun c => c.name = sk.category) = false) :
    (Register st sk).cats = st.cats ++ [⟨st.nextCatId, sk.category⟩] ∧
      (Register st sk).nextCatId = st.nextCatId + 1 := by
  rw [Register_cats, Register_nextCatId, insertCat_of_absent h]
  exact ⟨rfl, rfl⟩

/-- `Register` preserves the schema's uniqueness invariants. -/
theorem Register_WF (st : DBState) (sk : SkillIn) (hwf : WF st) :
    WF (Register st sk) := by
  obtain ⟨sid, k, _, _, _, hpres, habs, _, hparams, hnp⟩ := Register_master st sk hwf
  obtain ⟨w1, w2, w3, w4, w5, w6, w7, w8⟩ := hwf
  have hcats : ((Register st sk).cats.map (fun c => c.id)).Nodup ∧
      ((Register st sk).cats.map (fun c => c.name)).Nodup ∧
      (∀ c ∈ (Register st sk).cats, c.id < (Register st sk).nextCatId) := by
    rcases hc : st.cats.any (fun c => c.name = sk.category) with _ | _
    · obtain ⟨hc1, hc2⟩ := Register_cats_absent hc
      rw [hc1, hc2]
      refine ⟨?_, ?_, ?_⟩
      · rw [List.map_append]
        refine List.Nodup.append w1 (by simp) ?_
        intro a ha hb
        simp only [List.map_cons, List.map_nil, List.mem_singleton] at hb
        obtain ⟨c, hcm, hcid⟩ := List.mem_map.mp ha
        have := w6 c hcm
        omega
      · rw [List.map_append]
        refine List.Nodup.append w2 (by simp) ?_
        intro a ha hb
        simp only [List.map_cons, List.map_nil, List.mem_singleton] at hb
        obtain ⟨c, hcm, hcn⟩ := List.mem_map.mp ha
        have := List.any_eq_false.mp hc c hcm
        simp only [decide_eq_true_eq] at this
        exact this (by rw [← hb, hcn])
      · intro c hcm
        rcases List.mem_append.mp hcm with h2 | h2
        · have := w6 c h2
          omega
        · simp only [List.mem_singleton] at h2
          rw [h2]
          simp
    · obtain ⟨hc1, hc2⟩ := Register_cats_present hc
      rw [hc1, hc2]
      exact ⟨w1, w2, w6⟩
  have hskills : ((Register st sk).skills.map (fun s => s.id)).Nodup ∧
      ((Register st sk).skills.map (fun s => s.name)).Nodup ∧
      (∀ s ∈ (Register st sk).skills, s.id < (Register st sk).nextSkillId) := by
    rcases hs : st.skills.any (fun s => s.name = sk.name) with _ | _
    · obtain ⟨hs1, hs2, hs3⟩ := habs hs
      rw [hs1, hs3, hs2]
      refine ⟨?_, ?_, ?_⟩
      · rw [List.map_append]
        refine List.Nodup.append w3 (by simp) ?_
        intro a ha hb
        simp only [List.map_cons, List.map_nil, List.mem_singleton] at hb
        obtain ⟨s, hsm, hsid⟩ := List.mem_map.mp ha
        have := w7 s hsm
        omega
      · rw [List.map_append]
        refine List.Nodup.append w4 (by simp) ?_
        intro a ha hb
        simp only [List.map_cons, List.map_nil, List.mem_singleton] at hb
        obtain ⟨s, hsm, hsn⟩ := List.mem_map.mp ha
        have := List.any_eq_false.mp hs s hsm
        simp only [decide_eq_true_eq] at this
        exact this (by rw [← hb, hsn])
      · intro s hsm
        rcases List.mem_append.mp hsm with h2 | h2
        · have := w7 s h2
          omega
        · simp only [List.mem_singleton] at h2
          rw [h2]
          simp
    · obtain ⟨hp1, hp2, hp3⟩ := hpres hs
      refine ⟨hp2 ▸ w3, hp1 ▸ w4, ?_⟩
      intro s hsm
      rw [hp3]
      have : s.id ∈ (Register st sk).skills.map (fun s => s.id) :=
        List.mem_map_of_mem _ hsm
      rw [hp2] at this
      obtain ⟨t, htm, htid⟩ := List.mem_map.mp this
      rw [← htid]
      exact w7 t htm
  have hparams2 : ((Register st sk).params.map (fun p => p.id)).Nodup ∧
      (∀ p ∈ (Register st sk).params, p.id < (Register st sk).nextParamId) := by
    rw [hparams, hnp]
    constructor
    · rw [List.map_append]
      refine List.Nodup.append ?_ (mkParams_ids_nodup sid st.nextParamId sk.parameters) ?_
      · exact (w5.sublist (List.Sublist.map _ (List.filter_sublist _)))
      · intro a ha hb
        obtain ⟨p, hpm, hpid⟩ := List.mem_map.mp ha
        obtain ⟨q, hqm, hqid⟩ := List.mem_map.mp hb
        have h1 := w8 p (List.mem_of_mem_filter hpm)
        have h2 := (mkParams_id_bounds sid st.nextParamId sk.parameters q hqm).1
        omega
    · intro p hpm
      rcases List.mem_append.mp hpm with h2 | h2
      · have := w8 p (List.mem_of_mem_filter h2)
        omega
      · exact (mkParams_id_bounds sid st.nextParamId sk.parameters p h2).2
  exact ⟨hcats.1, hcats.2.1, hskills.1, hskills.2.1, hparams2.1,
    hcats.2.2, hskills.2.2, hparams2.2⟩

/-- After one `Register` on a well-formed state: exactly one skill row bears
the input name, its category reference resolves to the input category name,
and its parameter rows project exactly to the input parameter list. -/
theorem Register_once (st : DBState) (sk : SkillIn) (hwf : WF st) :
    (Register st sk).skills.countP (fun s => s.name = sk.name) = 1 ∧
    ∀ row ∈ (Register st sk).skills, row.name = sk.name →
      ((Register st sk).cats.filter (fun c => c.id = row.catId)).map (fun c => c.name) =
        [sk.category] ∧
      ((Register st sk).params.filter (fun p => p.skillId = row.id)).map
          (fun p => (p.name, p.type, p.info, p.req)) =
        sk.parameters.map (fun p => (p.name, p.type, p.info, p.required)) := by
  obtain ⟨sid, k, hk_mem, hk_name, hfil, _, _, _, hparams, _⟩ := Register_master st sk hwf
  have hwf2 := Register_WF st sk hwf
  constructor
  · rw [List.countP_eq_length_filter, hfil]
    rfl
  · intro row hrow hname
    have hrow_fil : row ∈ (Register st sk).skills.filter (fun s => s.name = sk.name) := by
      rw [List.mem_filter]
      exact ⟨hrow, by simp [hname]⟩
    rw [hfil, List.mem_singleton] at hrow_fil
    constructor
    · have hk_fil := filter_eq_singleton_of_nodup (fun c : CatRow => c.id)
        hwf2.1 hk_mem
      rw [hrow_fil]
      show ((Register st sk).cats.filter (fun c => c.id = k.id)).map (fun c => c.name) = _
      rw [hk_fil]
      simp [hk_name]
    · rw [hrow_fil]
      show ((Register st sk).params.filter (fun p => p.skillId = sid)).map _ = _
      rw [hparams, List.filter_append]
      have h1 : (st.params.filter (fun p => ¬ p.skillId = sid)).filter
          (fun p => p.skillId = sid) = [] := by
        rw [List.filter_eq_nil_iff]
        intro x hx
        have := List.of_mem_filter hx
        simpa using this
      have h2 : (mkParams sid st.nextParamId sk.parameters).filter
          (fun p => p.skillId = sid) = mkParams sid st.nextParamId sk.parameters := by
        rw [List.filter_eq_self]
        intro q hq
        simp [mkParams_skillId sid st.nextParamId sk.parameters q hq]
      rw [h1, h2, List.nil_append, mkParams_proj]

/-- Claim C1: for every well-formed store state and every input skill, after
`Register(skill)` exactly one skill row has the input's name, its category
reference resolves to the input's category name, and the parameters owned by
that row are exactly the input parameter list (by name, type, description,
required flag) with nothing left from earlier registrations; registering the
same skill twice again leaves one row and the same parameter set. -/
theorem C1_register_exact_state (st : DBState) (sk : SkillIn) (hwf : WF st) :
    ((Register st sk).skills.countP (fun s => s.name = sk.name) = 1 ∧
     ∀ row ∈ (Register st sk).skills, row.name = sk.name →
       ((Register st sk).cats.filter (fun c => c.id = row.catId)).map (fun c => c.name) =
         [sk.category] ∧
       ((Register st sk).params.filter (fun p => p.skillId = row.id)).map
           (fun p => (p.name, p.type, p.info, p.req)) =
         sk.parameters.map (fun p => (p.name, p.type, p.info, p.required))) ∧
    ((Register (Register st sk) sk).skills.countP (fun s => s.name = sk.name) = 1 ∧
     ∀ row ∈ (Register (Register st sk) sk).skills, row.name = sk.name →
       ((Register (Register st sk) sk).params.filter (fun p => p.skillId = row.id)).map
           (fun p => (p.name, p.type, p.info, p.req)) =
         sk.parameters.map (fun p => (p.name, p.type, p.info, p.required))) :=
  ⟨Register_once st sk hwf,
   (Register_once (Register st sk) sk (Register_WF st sk hwf)).1,
   fun row hrow hname =>
     ((Register_once (Register st sk) sk (Register_WF st sk hwf)).2 row hrow hname).2⟩

theorem C1_register_exact_state_witness :
    (Register emptyDB skRead).skills.countP (fun s => s.name = skRead.name) = 1 ∧
    (Register (Register emptyDB skRead) skRead).skills.countP
      (fun s => s.name = skRead.name) = 1 :=
  ⟨(C1_register_exact_state emptyDB skRead (by decide)).1.1,
   (C1_register_exact_state emptyDB skRead (by decide)).2.1⟩

/-- The category row named by the registration exists exactly once after the
call. -/
theorem Register_cat_count (st : DBState) (sk : SkillIn) (hwf : WF st) :
    (Register st sk).cats.countP (fun c => c.name = sk.category) = 1 := by
  rcases hc : st.cats.any (fun c => c.name = sk.category) with _ | _
  · obtain ⟨hc1, _⟩ := Register_cats_absent hc
    rw [hc1, List.countP_append]
    have h0 : st.cats.countP (fun c => c.name = sk.category) = 0 := by
      rw [List.countP_eq_zero]
      intro c hcm
      simpa using List.any_eq_false.mp hc c hcm
    rw [h0]
    simp
  · obtain ⟨hc1, _⟩ := Register_cats_present hc
    rw [hc1]
    obtain ⟨c, hcm, hcn⟩ := List.any_eq_true.mp hc
    simp only [decide_eq_true_eq] at hcn
    have hfil := filter_eq_singleton_of_nodup (fun c : CatRow => c.name)
      hwf.2.1 hcm
    rw [List.countP_eq_length_filter]
    have : st.cats.filter (fun x => x.name = sk.category) =
        st.cats.filter (fun x => x.name = c.name) := by rw [hcn]
    rw [this, hfil]
    rfl

theorem foldl_cat_count (cat : String) :
    ∀ (l : List SkillIn) (st : DBState), WF st → l ≠ [] →
      (∀ x ∈ l, x.category = cat) →
      ((l.foldl Register st).cats.countP (fun c => c.name = cat)) = 1 := by
  intro l
  induction l with
  | nil => intro st _ h _; exact absurd rfl h
  | cons x l ih =>
    intro st hwf _ hcat
    rcases l with _ | ⟨y, l2⟩
    · show ((Register st x).cats.countP (fun c => c.name = cat)) = 1
      have hx := hcat x (by simp)
      rw [← hx]
      exact Register_cat_count st x hwf
    · show (((y :: l2).foldl Register (Register st x)).cats.countP _) = 1
      exact ih (Register st x) (Register_WF st x hwf) (by simp)
        (fun z hz => hcat z (List.mem_cons_of_mem x hz))

/-- Claim C5: registering any number of skills under one category name keeps
at most one category row with that name — the first registration inserts it,
every later one reuses the existing row's id. -/
theorem C5_category_provisioned_once (st : DBState) (sk : SkillIn) (hwf : WF st) :
    (st.cats.any (fun c => c.name = sk.category) = false →
      (Register st sk).cats = st.cats ++ [⟨st.nextCatId, sk.category⟩]) ∧
    (st.cats.any (fun c => c.name = sk.category) = true →
      (Register st sk).cats = st.cats) ∧
    (∀ c ∈ st.cats, c.name = sk.category →
      ∀ row ∈ (Register st sk).skills, row.name = sk.name → row.catId = c.id) ∧
    (∀ l : List SkillIn, l ≠ [] → (∀ x ∈ l, x.category = sk.category) →
      ((l.foldl Register st).cats.countP (fun c => c.name = sk.category)) = 1) := by
  obtain ⟨sid, k, hk_mem, hk_name, hfil, _, _, _, _, _⟩ := Register_master st sk hwf
  refine ⟨fun h => (Register_cats_absent h).1, fun h => (Register_cats_present h).1,
    ?_, fun l => foldl_cat_count sk.category l st hwf⟩
  intro c hcm hcn row hrow hname
  have hrow_fil : row ∈ (Register st sk).skills.filter (fun s => s.name = sk.name) := by
    rw [List.mem_filter]
    exact ⟨hrow, by simp [hname]⟩
  rw [hfil, List.mem_singleton] at hrow_fil
  have hany : st.cats.any (fun x => x.name = sk.category) = true :=
    List.any_eq_true.mpr ⟨c, hcm, by simp [hcn]⟩
  have hk_mem2 : k ∈ st.cats := by
    have := (Register_cats_present hany).1
    rw [this] at hk_mem
    exact hk_mem
  have hck : c = k := eq_of_nodup_key (fun x : CatRow => x.name) hwf.2.1 hk_mem2 hcm
    (by show c.name = k.name; rw [hcn, hk_name])
  rw [hrow_fil, hck]

theorem C5_category_provisioned_once_witness :
    (([skRead, skWrite].foldl Register emptyDB).cats.countP
      (fun c => c.name = skRead.category)) = 1 :=
  (C5_category_provisioned_once emptyDB skRead (by decide)).2.2.2
    [skRead, skWrite] (by simp) (by decide)

/-- Claim C6: a `Register` call whose skill name already exists updates the
existing row in place — same id, new category reference and description —
while a fresh name appends a new row. -/
theorem C6_upsert_preserves_id (st : DBState) (sk : SkillIn) (hwf : WF st) :
    (∀ row ∈ st.skills, row.name = sk.name →
      (Register st sk).skills.map (fun s => s.id) = st.skills.map (fun s => s.id) ∧
      ∃ cid, (Register st sk).skills.filter (fun s => s.name = sk.name) =
        [⟨row.id, cid, sk.name, sk.info⟩]) ∧
    ((∀ row ∈ st.skills, row.name ≠ sk.name) →
      ∃ cid, (Register st sk).skills =
        st.skills ++ [⟨st.nextSkillId, cid, sk.name, sk.info⟩]) := by
  obtain ⟨sid, k, _, _, hfil, hpres, habs, hid_of, _, _⟩ := Register_master st sk hwf
  constructor
  · intro row hrow hname
    have hany : st.skills.any (fun s => s.name = sk.name) = true :=
      List.any_eq_true.mpr ⟨row, hrow, by simp [hname]⟩
    refine ⟨(hpres hany).2.1, k.id, ?_⟩
    rw [hfil, hid_of row hrow hname]
  · intro hnone
    have hany : st.skills.any (fun s => s.name = sk.name) = false := by
      rw [List.any_eq_false]
      intro x hx
      simpa using hnone x hx
    obtain ⟨h1, h2, _⟩ := habs hany
    exact ⟨k.id, by rw [h1, h2]⟩

theorem C6_upsert_preserves_id_witness :
    (Register (Register emptyDB skRead) ⟨"tools", "read", "updated", []⟩).skills.map
        (fun s => s.id) =
      (Register emptyDB skRead).skills.map (fun s => s.id) :=
  ((C6_upsert_preserves_id (Register emptyDB skRead) ⟨"tools", "read", "updated", []⟩
      (by decide)).1 ⟨1, 1, "read", "Read file content"⟩ (by decide) (by decide)).1

/-! ### GetSkillDetail: scan-loop lemmas -/

theorem detailRows_eq_nil_iff (st : DBState) (n : String) :
    detailRows st n = [] ↔ st.skills.filter (fun s => s.name = n) = [] := by
  unfold detailRows
  constructor
  · intro h
    rcases hfil : st.skills.filter (fun s => s.name = n) with _ | ⟨s, rest⟩
    · exact hfil
    · rw [hfil, List.flatMap_cons] at h
      have hfs := (List.append_eq_nil.mp h).1
      dsimp only at hfs
      by_cases hps : (st.params.filter (fun p => p.skillId = s.id)).isEmpty
      · rw [if_pos hps] at hfs
        cases hfs
      · rw [if_neg hps] at hfs
        rw [List.map_eq_nil_iff.mp hfs] at hps
        simp at hps
  · intro h
    rw [h]
    rfl

theorem foldl_scanRow_eq_none :
    ∀ (rows : List (SkillRow × Option ParamRow)) (acc : Option SkillOut),
      rows.foldl scanRow acc = none → rows = [] ∧ acc = none := by
  intro rows
  induction rows with
  | nil => exact fun acc h => ⟨rfl, h⟩
  | cons r rest ih =>
    intro acc h
    rw [List.foldl_cons] at h
    obtain ⟨_, h2⟩ := ih (scanRow acc r) h
    simp [scanRow] at h2

theorem foldl_scanRow_params (s : SkillRow) :
    ∀ (ps : List ParamRow) (acc : SkillOut),
      (ps.map (fun p => (s, some p))).foldl scanRow (some acc) =
        some (if ps = [] then acc
              else ⟨s.id, s.catId, s.name, s.info, acc.params ++ ps⟩) := by
  intro ps
  induction ps with
  | nil => intro acc; simp
  | cons p rest ih =>
    intro acc
    rw [List.map_cons, List.foldl_cons]
    have hs : scanRow (some acc) (s, some p) =
        some ⟨s.id, s.catId, s.name, s.info, acc.params ++ [p]⟩ := rfl
    rw [hs, ih]
    rcases rest with _ | ⟨q, qs⟩
    · simp
    · simp

/-- On a well-formed state, `GetSkillDetail` of an existing name returns that
skill row together with exactly its parameter rows, in stored (rowid)
order. -/
theorem getSkillDetail_unique (st : DBState) {s : SkillRow} {n : String}
    (hwf : WF st) (hs : s ∈ st.skills) (hn : s.name = n) :
    GetSkillDetail st n = .ok ⟨s.id, s.catId, s.name, s.info,
      st.params.filter (fun p => p.skillId = s.id)⟩ := by
  have hfil : st.skills.filter (fun x => x.name = n) = [s] := by
    rw [← hn]
    exact filter_eq_singleton_of_nodup (fun x : SkillRow => x.name) hwf.2.2.2.1 hs
  have hrows : detailRows st n =
      (if (st.params.filter (fun p => p.skillId = s.id)).isEmpty then [(s, none)]
       else (st.params.filter (fun p => p.skillId = s.id)).map (fun p => (s, some p))) := by
    unfold detailRows
    rw [hfil, List.flatMap_cons]
    simp
  unfold GetSkillDetail
  by_cases hps : (st.params.filter (fun p => p.skillId = s.id)).isEmpty
  · have hempty : st.params.filter (fun p => p.skillId = s.id) = [] :=
      List.isEmpty_iff.mp hps
    rw [hrows, if_pos hps, hempty]
    rfl
  · rcases hql : st.params.filter (fun p => p.skillId = s.id) with _ | ⟨q, qs⟩
    · rw [hql] at hps
      simp at hps
    · rw [hrows, if_neg hps, hql, List.map_cons, List.foldl_cons]
      have h1 : scanRow none (s, some q) =
          some ⟨s.id, s.catId, s.name, s.info, [q]⟩ := rfl
      rw [h1, foldl_scanRow_params]
      rcases qs with _ | ⟨q2, qs2⟩ <;> simp

/-- Claim C3: `GetSkillDetail(name)` errors exactly when no skill row bears
the name; the error text carries the queried name; a present skill with zero
parameters comes back with an empty parameter list and no error. -/
theorem C3_detail_notfound_contract (st : DBState) (n : String) :
    ((∃ e, GetSkillDetail st n = .error e) ↔ ∀ s ∈ st.skills, s.name ≠ n) ∧
    (∀ e, GetSkillDetail st n = .error e → e = "skill not found: " ++ n) ∧
    (∀ s, WF st → s ∈ st.skills → s.name = n →
      st.params.filter (fun p => p.skillId = s.id) = [] →
      GetSkillDetail st n = .ok ⟨s.id, s.catId, s.name, s.info, []⟩) := by
  refine ⟨⟨?_, ?_⟩, ?_, ?_⟩
  · rintro ⟨e, he⟩ s hs hn
    unfold GetSkillDetail at he
    rcases hfold : (detailRows st n).foldl scanRow none with _ | sk2 <;>
      rw [hfold] at he
    · have hnil := (foldl_scanRow_eq_none _ _ hfold).1
      rw [detailRows_eq_nil_iff] at hnil
      have : s ∈ st.skills.filter (fun s => s.name = n) := by
        rw [List.mem_filter]
        exact ⟨hs, by simp [hn]⟩
      rw [hnil] at this
      cases this
    · cases he
  · intro h
    have hfil : st.skills.filter (fun s => s.name = n) = [] := by
      rw [List.filter_eq_nil_iff]
      intro x hx
      simpa using h x hx
    have hrows : detailRows st n = [] := (detailRows_eq_nil_iff st n).mpr hfil
    refine ⟨"skill not found: " ++ n, ?_⟩
    unfold GetSkillDetail
    rw [hrows]
    rfl
  · intro e he
    unfold GetSkillDetail at he
    rcases hfold : (detailRows st n).foldl scanRow none with _ | sk2 <;>
      rw [hfold] at he
    · injection he with h
      exact h.symm
    · cases he
  · intro s hwf hs hn hempty
    have h := getSkillDetail_unique st hwf hs hn
    rw [hempty] at h
    exact h

theorem C3_detail_notfound_contract_witness :
    GetSkillDetail (Register emptyDB skWrite) "write" =
      .ok ⟨1, 1, "write", "Write to file", []⟩ :=
  (C3_detail_notfound_contract (Register emptyDB skWrite) "write").2.2
    ⟨1, 1, "write", "Write to file"⟩ (by decide) (by decide) (by decide) (by decide)

/-! ### Parameter order as returned by the read surfaces (claim C7) -/

/-- Claim C7 counterexample: a skill registered with parameters named `b`
then `a` comes back from `GetSkillDetail` with its parameter sequence in that
insertion order — `b` before `a` — which is not sorted alphabetically on the
name field (and the catalog projection lists the same order). -/
theorem C7_counterexample :
    GetSkillDetail
        (Register emptyDB ⟨"files", "tool", "t",
          [⟨"b", "string", "", false⟩, ⟨"a", "string", "", false⟩]⟩) "tool" =
      .ok ⟨1, 1, "tool", "t",
        [⟨1, 1, "b", "string", "", false⟩, ⟨2, 1, "a", "string", "", false⟩]⟩ ∧
    ¬ strLe "b" "a" ∧
    (argsOf
        (Register emptyDB ⟨"files", "tool", "t",
          [⟨"b", "string", "", false⟩, ⟨"a", "string", "", false⟩]⟩) 1).map
      (fun o => getStr o "n") = ["b", "a"] := by
  refine ⟨by decide, by decide, by decide⟩

/-- Claim C7 (amended): the parameter list returned for a registered skill is
in the order of the registering call's parameter list — the rowid (insertion)
order — not sorted by parameter name. -/
theorem C7_amended_params_in_registration_order (st : DBState) (sk : SkillIn)
    (hwf : WF st) :
    (GetSkillDetail (Register st sk) sk.name).map
        (fun r => r.params.map (fun p => (p.name, p.type, p.info, p.req))) =
      .ok (sk.parameters.map (fun p => (p.name, p.type, p.info, p.required))) := by
  obtain ⟨sid, k, _, _, hfil, _, _, _, hparams, _⟩ := Register_master st sk hwf
  have hwf2 := Register_WF st sk hwf
  have hmem : (⟨sid, k.id, sk.name, sk.info⟩ : SkillRow) ∈ (Register st sk).skills := by
    have : (⟨sid, k.id, sk.name, sk.info⟩ : SkillRow) ∈
        (Register st sk).skills.filter (fun s => s.name = sk.name) := by
      rw [hfil]
      exact List.mem_singleton_self _
    exact List.mem_of_mem_filter this
  have hdet := getSkillDetail_unique (Register st sk) hwf2 hmem rfl
  rw [hdet]
  show Except.ok _ = _
  have hpfil : (Register st sk).params.filter (fun p => p.skillId = sid) =
      mkParams sid st.nextParamId sk.parameters := by
    rw [hparams, List.filter_append]
    have h1 : (st.params.filter (fun p => ¬ p.skillId = sid)).filter
        (fun p => p.skillId = sid) = [] := by
      rw [List.filter_eq_nil_iff]
      intro x hx
      have := List.of_mem_filter hx
      simpa using this
    have h2 : (mkParams sid st.nextParamId sk.parameters).filter
        (fun p => p.skillId = sid) = mkParams sid st.nextParamId sk.parameters := by
      rw [List.filter_eq_self]
      intro q hq
      simp [mkParams_skillId sid st.nextParamId sk.parameters q hq]
    rw [h1, h2, List.nil_append]
  dsimp only
  rw [hpfil, mkParams_proj]

theorem C7_amended_params_in_registration_order_witness :
    (GetSkillDetail (Register emptyDB skRead) skRead.name).map
        (fun r => r.params.map (fun p => (p.name, p.type, p.info, p.req))) =
      .ok (skRead.parameters.map (fun p => (p.name, p.type, p.info, p.required))) :=
  C7_amended_params_in_registration_order emptyDB skRead (by decide)

/-! ### Transactional rollback (claim C2) -/

/-- Claim C2: whenever any database step of `Register` fails, the call
returns the error wrapped with that step's name and the committed state
observable afterwards is exactly the state before the call — the transaction
is rolled back, so the previously committed skill row and parameter set
survive intact. -/
theorem C2_register_rollback (fail : RegStep → Bool) (st : DBState) (sk : SkillIn)
    (e : String) (he : (RegisterR fail st sk).1 = .error e) :
    (RegisterR fail st sk).2 = st ∧ ∃ step, fail step = true ∧ e = stepErr step := by
  cases h1 : fail RegStep.txBegin with
  | true =>
    have hpair : RegisterR fail st sk = (.error (stepErr .txBegin), st) := by
      simp [RegisterR, h1]
    rw [hpair] at he
    exact ⟨by rw [hpair], .txBegin, h1, (Except.error.inj he).symm⟩
  | false =>
  cases h2 : fail RegStep.upsertCat with
  | true =>
    have hpair : RegisterR fail st sk = (.error (stepErr .upsertCat), st) := by
      simp [RegisterR, h1, h2]
    rw [hpair] at he
    exact ⟨by rw [hpair], .upsertCat, h2, (Except.error.inj he).symm⟩
  | false =>
  cases h3 : fail RegStep.getCatId with
  | true =>
    have hpair : RegisterR fail st sk = (.error (stepErr .getCatId), st) := by
      simp [RegisterR, h1, h2, h3]
    rw [hpair] at he
    exact ⟨by rw [hpair], .getCatId, h3, (Except.error.inj he).symm⟩
  | false =>
  cases h4 : fail RegStep.upsertSkillRow with
  | true =>
    have hpair : RegisterR fail st sk = (.error (stepErr .upsertSkillRow), st) := by
      simp [RegisterR, h1, h2, h3, h4]
    rw [hpair] at he
    exact ⟨by rw [hpair], .upsertSkillRow, h4, (Except.error.inj he).symm⟩
  | false =>
  cases h5 : fail RegStep.deleteParams with
  | true =>
    have hpair : RegisterR fail st sk = (.error (stepErr .deleteParams), st) := by
      simp [RegisterR, h1, h2, h3, h4, h5]
    rw [hpair] at he
    exact ⟨by rw [hpair], .deleteParams, h5, (Except.error.inj he).symm⟩
  | false =>
  by_cases h6 : 0 < sk.parameters.length ∧ fail RegStep.prepareInsert = true
  · have hpair : RegisterR fail st sk = (.error (stepErr .prepareInsert), st) := by
      simp [RegisterR, h1, h2, h3, h4, h5, h6]
    rw [hpair] at he
    exact ⟨by rw [hpair], .prepareInsert, h6.2, (Except.error.inj he).symm⟩
  · rcases hfind : (List.range sk.parameters.length).find?
        (fun i => fail (.insertParam i)) with _ | i
    · cases h7 : fail RegStep.txCommit with
      | true =>
        have hpair : RegisterR fail st sk = (.error (stepErr .txCommit), st) := by
          simp [RegisterR, h1, h2, h3, h4, h5, h6, hfind, h7]
        rw [hpair] at he
        exact ⟨by rw [hpair], .txCommit, h7, (Except.error.inj he).symm⟩
      | false =>
        have hok : (RegisterR fail st sk).1 = .ok () := by
          simp [RegisterR, h1, h2, h3, h4, h5, h6, hfind, h7]
        rw [hok] at he
        exact Except.noConfusion he
    · have hpair : RegisterR fail st sk = (.error (stepErr (.insertParam i)), st) := by
        simp [RegisterR, h1, h2, h3, h4, h5, h6, hfind]
      rw [hpair] at he
      have hstep : fail (RegStep.insertParam i) = true := by
        have := List.find?_some hfind
        simpa using this
      exact ⟨by rw [hpair], .insertParam i, hstep, (Except.error.inj he).symm⟩

/-- When no step fails, `RegisterR` commits and the committed state is
exactly the failure-free `Register` result. -/
theorem RegisterR_ok (fail : RegStep → Bool) (st : DBState) (sk : SkillIn)
    (hok : (RegisterR fail st sk).1 = .ok ()) :
    (RegisterR fail st sk).2 = Register st sk := by
  cases h1 : fail RegStep.txBegin <;>
    cases h2 : fail RegStep.upsertCat <;>
      cases h3 : fail RegStep.getCatId <;>
        cases h4 : fail RegStep.upsertSkillRow <;>
          cases h5 : fail RegStep.deleteParams <;>
            simp only [RegisterR, h1, h2, h3, h4, h5, Bool.false_eq_true,
              if_false, if_true, ite_true, ite_false] at hok ⊢ <;>
    try exact Except.noConfusion hok
  by_cases h6 : 0 < sk.parameters.length ∧ fail RegStep.prepareInsert = true
  · simp only [h6, if_true] at hok
    exact Except.noConfusion hok
  · rcases hfind : (List.range sk.parameters.length).find?
        (fun i => fail (.insertParam i)) with _ | i <;>
      simp only [h6, if_false, hfind, ite_false, ite_true] at hok ⊢
    · cases h7 : fail RegStep.txCommit <;> simp only [h7] at hok ⊢
      · rfl
      · simp at hok
    · exact Except.noConfusion hok

theorem C2_register_rollback_witness :
    (RegisterR (fun s => s = RegStep.insertParam 1) (Register emptyDB skRead)
        ⟨"files", "read", "v2", [⟨"q1", "string", "", false⟩, ⟨"q2", "int", "", true⟩]⟩).2 =
      Register emptyDB skRead ∧
    ∃ step, (fun s => s = RegStep.insertParam 1 : RegStep → Bool) step = true ∧
      "insert param: database error" = stepErr step :=
  C2_register_rollback (fun s => s = RegStep.insertParam 1) (Register emptyDB skRead)
    ⟨"files", "read", "v2", [⟨"q1", "string", "", false⟩, ⟨"q2", "int", "", true⟩]⟩
    "insert param: database error" (by decide)

/-! ### LIKE pattern matching (claims C8, C10) -/

theorem likeMatch_percent (ps t : List Char) :
    likeMatch ('%' :: ps) t = true ↔
      ∃ t1 t2, t = t1 ++ t2 ∧ likeMatch ps t2 = true := by
  show (if ('%' : Char) = '%' then t.tails.any (fun t2 => likeMatch ps t2)
        else _) = true ↔ _
  rw [if_pos rfl, List.any_eq_true]
  constructor
  · rintro ⟨t2, hmem, h⟩
    obtain ⟨t1, ht⟩ := (List.mem_tails t2 t).mp hmem
    exact ⟨t1, t2, ht.symm, h⟩
  · rintro ⟨t1, t2, ht, h⟩
    exact ⟨t2, (List.mem_tails t2 t).mpr ⟨t1, ht.symm⟩, h⟩

theorem likeMatch_percent_nil (t : List Char) : likeMatch ['%'] t = true := by
  rw [likeMatch_percent]
  exact ⟨t, [], (List.append_nil t).symm, rfl⟩

theorem likeMatch_plain_cons {c : Char} (hc1 : c ≠ '%') (hc2 : c ≠ '_')
    (ps : List Char) :
    (likeMatch (c :: ps) [] = false) ∧
    (∀ d t, likeMatch (c :: ps) (d :: t) =
      (decide (foldChar c = foldChar d) && likeMatch ps t)) := by
  constructor
  · show (if c = '%' then _ else _) = false
    rw [if_neg hc1]
  · intro d t
    show (if c = '%' then _ else
      (if c = '_' then true else decide (foldChar c = foldChar d)) && likeMatch ps t) = _
    rw [if_neg hc1, if_neg hc2]

theorem likeMatch_plain_iff {qs : List Char} (hq : ∀ c ∈ qs, c ≠ '%' ∧ c ≠ '_') :
    ∀ (ps t : List Char),
      likeMatch (qs ++ ps) t = true ↔
        ∃ t1 t2, t = t1 ++ t2 ∧ t1.map foldChar = qs.map foldChar ∧
          likeMatch ps t2 = true := by
  induction qs with
  | nil =>
    intro ps t
    constructor
    · intro h
      exact ⟨[], t, rfl, rfl, h⟩
    · rintro ⟨t1, t2, rfl, h1, h2⟩
      rw [List.map_eq_nil_iff.mp h1]
      exact h2
  | cons c qs ih =>
    intro ps t
    have hc := hq c (List.mem_cons_self c qs)
    have ih2 := ih (fun x hx => hq x (List.mem_cons_of_mem c hx))
    cases t with
    | nil =>
      rw [List.cons_append]
      constructor
      · intro h
        rw [(likeMatch_plain_cons hc.1 hc.2 (qs ++ ps)).1] at h
        cases h
      · rintro ⟨t1, t2, ht, h1, _⟩
        have : t1 = [] := (List.append_eq_nil.mp ht.symm).1
        rw [this] at h1
        cases (List.map_eq_nil_iff.mp h1.symm)
    | cons d t =>
      rw [List.cons_append, (likeMatch_plain_cons hc.1 hc.2 (qs ++ ps)).2 d t,
        Bool.and_eq_true, decide_eq_true_eq, ih2]
      constructor
      · rintro ⟨hfold, t1, t2, ht, h1, h2⟩
        exact ⟨d :: t1, t2, by rw [List.cons_append, ht], by simp [h1, hfold], h2⟩
      · rintro ⟨t1, t2, ht, h1, h2⟩
        rcases t1 with _ | ⟨x, t1⟩
        · rw [List.map_nil] at h1
          simp at h1
        · rw [List.cons_append] at ht
          injection ht with hd ht2
          rw [List.map_cons, List.map_cons] at h1
          injection h1 with hf h1
          refine ⟨by rw [hd]; exact hf.symm, t1, t2, ht2, h1, h2⟩

theorem prefB_iff : ∀ (q t : List Char), prefB q t = true ↔ ∃ r, t = q ++ r
  | [], t => by
    constructor
    · intro _
      exact ⟨t, rfl⟩
    · intro _
      rfl
  | _ :: _, [] => by
    constructor
    · intro h
      cases h
    · rintro ⟨r, hr⟩
      cases hr
  | a :: q, b :: t => by
    show (decide (a = b) && prefB q t) = true ↔ _
    rw [Bool.and_eq_true, decide_eq_true_eq, prefB_iff q t]
    constructor
    · rintro ⟨rfl, r, rfl⟩
      exact ⟨r, rfl⟩
    · rintro ⟨r, hr⟩
      injection hr with h1 h2
      exact ⟨h1.symm, r, h2⟩

theorem subB_iff (q t : List Char) :
    subB q t = true ↔ ∃ t1 r, t = t1 ++ q ++ r := by
  unfold subB
  rw [List.any_eq_true]
  constructor
  · rintro ⟨t2, hmem, h⟩
    obtain ⟨t1, ht⟩ := (List.mem_tails t2 t).mp hmem
    obtain ⟨r, hr⟩ := (prefB_iff q t2).mp h
    exact ⟨t1, r, by rw [← ht, hr, List.append_assoc]⟩
  · rintro ⟨t1, r, rfl⟩
    exact ⟨q ++ r, (List.mem_tails _ _).mpr ⟨t1, (List.append_assoc t1 q r).symm⟩,
      (prefB_iff q (q ++ r)).mpr ⟨r, rfl⟩⟩

/-- For wildcard-free queries, the `LIKE '%'+q+'%'` match used by both search
functions is exactly ASCII-case-insensitive substring containment. -/
theorem likeQuery_plain {q : String} (hq : ∀ c ∈ q.data, c ≠ '%' ∧ c ≠ '_')
    (t : String) : likeQuery q t = ciContains t q := by
  rw [Bool.eq_iff_iff]
  unfold likeQuery ciContains
  rw [likeMatch_percent, subB_iff]
  constructor
  · rintro ⟨t1, t2, ht, h⟩
    rw [likeMatch_plain_iff hq] at h
    obtain ⟨m, r, hm0, hm, _⟩ := h
    refine ⟨t1.map foldChar, r.map foldChar, ?_⟩
    rw [ht, hm0, ← hm]
    simp
  · rintro ⟨u1, u2, hu⟩
    have hu2 : t.data.map foldChar = u1 ++ (q.data.map foldChar ++ u2) := by
      rw [hu, List.append_assoc]
    obtain ⟨t1, rest, ht1, _, hm2⟩ := List.map_eq_append_iff.mp hu2
    obtain ⟨m, r, hrest, hm3, _⟩ := List.map_eq_append_iff.mp hm2
    refine ⟨t1, m ++ r, by rw [ht1, hrest], ?_⟩
    rw [likeMatch_plain_iff hq]
    exact ⟨m, r, rfl, hm3, likeMatch_percent_nil r⟩

/-- Claim C8 counterexample: the query `"_"` is passed to SQL `LIKE`, where
`_` matches any single character; the store returns a skill named `x` even
though neither its name nor its description contains `"_"` as a substring
(case-insensitively), so search is not exactly substring matching for every
query string. -/
theorem C8_counterexample :
    SearchSkills (Register emptyDB ⟨"c", "x", "", []⟩) "_" = [⟨1, 1, "x", ""⟩] ∧
    (Register emptyDB ⟨"c", "x", "", []⟩).skills.filter
      (fun s => ciContains s.name "_" || ciContains s.info "_") = [] :=
  ⟨by decide, by decide⟩

/-- Claim C8 (amended): for every query string free of the SQL LIKE wildcards
`%` and `_`, `SearchSkills` and `Search` return exactly the rows whose name
or description contains the query as a substring under ASCII case folding —
differing ASCII letter case never excludes a match. -/
theorem C8_amended_search_ci_substring (st : DBState) (q : String)
    (hq : ∀ c ∈ q.data, c ≠ '%' ∧ c ≠ '_') :
    SearchSkills st q = st.skills.filter
        (fun s => ciContains s.name q || ciContains s.info q) ∧
    Search st q = (catalogRows st).filter
        (fun h => ciContains h.name q || ciContains h.info q) := by
  constructor
  · unfold SearchSkills
    exact List.filter_congr fun s _ => by
      rw [likeQuery_plain hq s.name, likeQuery_plain hq s.info]
  · unfold Search
    exact List.filter_congr fun h _ => by
      rw [likeQuery_plain hq h.name, likeQuery_plain hq h.info]

theorem C8_amended_search_ci_substring_witness :
    SearchSkills stA "READ" = stA.skills.filter
        (fun s => ciContains s.name "READ" || ciContains s.info "READ") ∧
    Search stA "READ" = (catalogRows stA).filter
        (fun h => ciContains h.name "READ" || ciContains h.info "READ") :=
  C8_amended_search_ci_substring stA "READ" (by decide)

/-- Claim C10: the empty query turns into the pattern `%%`, which matches
every name and description, so both search surfaces return every row — not
an empty result and not an error. -/
theorem C10_empty_query_returns_all (st : DBState) :
    SearchSkills st "" = st.skills ∧ Search st "" = catalogRows st := by
  have hall : ∀ t : String, likeQuery "" t = true := fun t => by
    show likeMatch ('%' :: ([] ++ ['%'])) t.data = true
    rw [List.nil_append, likeMatch_percent]
    exact ⟨[], t.data, rfl, likeMatch_percent_nil t.data⟩
  constructor
  · unfold SearchSkills
    rw [List.filter_eq_self]
    intro s _
    rw [hall s.name]
    rfl
  · unfold Search
    rw [List.filter_eq_self]
    intro h _
    rw [hall h.name]
    rfl

/-! ### GetIndex: grouping and rendering (claim C4) -/

theorem insertAppend_keys (m : List (String × List String)) (c v : String) :
    (insertAppend m c v).map (fun kv => kv.1) =
      if c ∈ m.map (fun kv => kv.1) then m.map (fun kv => kv.1)
      else m.map (fun kv => kv.1) ++ [c] := by
  induction m with
  | nil => simp [insertAppend]
  | cons kv rest ih =>
    obtain ⟨k, vs⟩ := kv
    by_cases hk : k = c
    · subst hk
      simp [insertAppend]
    · rw [insertAppend, if_neg hk, List.map_cons, List.map_cons, ih]
      have : (c ∈ k :: rest.map (fun kv => kv.1)) ↔ c ∈ rest.map (fun kv => kv.1) := by
        rw [List.mem_cons]
        constructor
        · rintro (h | h)
          · exact absurd h.symm hk
          · exact h
        · exact Or.inr
      by_cases hc : c ∈ rest.map (fun kv => kv.1)
      · rw [if_pos hc, if_pos (this.mpr hc)]
      · rw [if_neg hc, if_neg (fun h => hc (this.mp h))]
        simp

theorem lookupGrouped_nil (k : String) : lookupGrouped [] k = [] := rfl

theorem lookupGrouped_cons (k0 : String) (vs : List String)
    (rest : List (String × List String)) (k : String) :
    lookupGrouped ((k0, vs) :: rest) k =
      if k0 = k then vs else lookupGrouped rest k := by
  unfold lookupGrouped
  by_cases h : k0 = k
  · rw [List.find?_cons_of_pos _ (by simpa using h), if_pos h]
    rfl
  · rw [List.find?_cons_of_neg _ (by simpa using h), if_neg h]

theorem lookupGrouped_insertAppend (m : List (String × List String)) (c v k : String) :
    lookupGrouped (insertAppend m c v) k =
      if k = c then lookupGrouped m c ++ [v] else lookupGrouped m k := by
  induction m with
  | nil =>
    show lookupGrouped [(c, [v])] k = _
    by_cases hk : k = c
    · subst hk
      simp [lookupGrouped_cons, lookupGrouped_nil]
    · simp [lookupGrouped_cons, lookupGrouped_nil, hk, Ne.symm hk]
  | cons kv rest ih =>
    obtain ⟨k0, vs⟩ := kv
    by_cases hk0 : k0 = c
    · subst hk0
      by_cases hk : k = k0
      · subst hk
        simp [insertAppend, lookupGrouped_cons]
      · simp [insertAppend, lookupGrouped_cons, hk, Ne.symm hk]
    · by_cases hk : k0 = k
      · subst hk
        simp [insertAppend, lookupGrouped_cons, hk0,
          (fun h => hk0 h.symm : ¬ (c = k0))]
      · simp [insertAppend, lookupGrouped_cons, hk0, hk, ih]

theorem lookupGrouped_foldl :
    ∀ (rows : List (String × String)) (m : List (String × List String)) (c : String),
      lookupGrouped (rows.foldl (fun m r => insertAppend m r.1 r.2) m) c =
        lookupGrouped m c ++ (rows.filter (fun r => r.1 = c)).map (fun r => r.2) := by
  intro rows
  induction rows with
  | nil => intro m c; simp
  | cons r rows ih =>
    intro m c
    rw [List.foldl_cons, ih, lookupGrouped_insertAppend]
    by_cases hc : c = r.1
    · subst hc
      rw [if_pos rfl, List.filter_cons_of_pos (by simp), List.map_cons,
        List.append_assoc]
      rfl
    · rw [if_neg hc, List.filter_cons_of_neg (by simpa using fun h => hc h.symm)]

theorem keys_foldl_nodup :
    ∀ (rows : List (String × String)) (m : List (String × List String)),
      (m.map (fun kv => kv.1)).Nodup →
      ((rows.foldl (fun m r => insertAppend m r.1 r.2) m).map (fun kv => kv.1)).Nodup := by
  intro rows
  induction rows with
  | nil => exact fun m h => h
  | cons r rows ih =>
    intro m hm
    rw [List.foldl_cons]
    refine ih _ ?_
    rw [insertAppend_keys]
    by_cases hmem : r.1 ∈ m.map (fun kv => kv.1)
    · rw [if_pos hmem]; exact hm
    · rw [if_neg hmem]
      exact List.Nodup.append hm (by simp) (by
        intro a ha hb
        simp only [List.mem_singleton] at hb
        exact hmem (hb ▸ ha))

theorem keys_foldl_mem :
    ∀ (rows : List (String × String)) (m : List (String × List String)) (x : String),
      (x ∈ (rows.foldl (fun m r => insertAppend m r.1 r.2) m).map (fun kv => kv.1)) ↔
        x ∈ m.map (fun kv => kv.1) ∨ x ∈ rows.map (fun r => r.1) := by
  intro rows
  induction rows with
  | nil => intro m x; simp
  | cons r rows ih =>
    intro m x
    rw [List.foldl_cons, ih, insertAppend_keys, List.map_cons, List.mem_cons]
    by_cases hmem : r.1 ∈ m.map (fun kv => kv.1)
    · rw [if_pos hmem]
      constructor
      · rintro (h | h)
        · exact Or.inl h
        · exact Or.inr (Or.inr h)
      · rintro (h | h | h)
        · exact Or.inl h
        · exact Or.inl (h ▸ hmem)
        · exact Or.inr h
    · rw [if_neg hmem, List.mem_append, List.mem_singleton]
      constructor
      · rintro ((h | h) | h)
        · exact Or.inl h
        · exact Or.inr (Or.inl h)
        · exact Or.inr (Or.inr h)
      · rintro (h | h | h)
        · exact Or.inl (Or.inl h)
        · exact Or.inl (Or.inr h)
        · exact Or.inr h

theorem insertionSort_eq_of_perm {α : Type} (r : α → α → Prop) [DecidableRel r]
    [IsTotal α r] [IsTrans α r] [IsAntisymm α r] {l1 l2 : List α} (h : List.Perm l1 l2) :
    List.insertionSort r l1 = List.insertionSort r l2 :=
  List.eq_of_perm_of_sorted
    ((List.perm_insertionSort r l1).trans (h.trans (List.perm_insertionSort r l2).symm))
    (List.sorted_insertionSort r l1) (List.sorted_insertionSort r l2)

theorem insertionSort_eq_of_perm_sorted {α : Type} (r : α → α → Prop) [DecidableRel r]
    [IsTotal α r] [IsTrans α r] [IsAntisymm α r] {X Y : List α} (h : List.Perm Y X)
    (hs : List.Pairwise r Y) : List.insertionSort r X = Y :=
  List.eq_of_perm_of_sorted ((List.perm_insertionSort r X).trans h.symm)
    (List.sorted_insertionSort r X) hs

/-- `GetIndex` renders exactly the spec's canonical form: distinct category
names sorted alphabetically, each holding its skill names sorted
alphabetically. -/
theorem getIndex_eq_specIndex (st : DBState) : GetIndex st = specIndex st := by
  show String.intercalate ", "
      ((List.insertionSort strLe
        (((List.insertionSort pairLe (joinPairs st)).foldl
          (fun m r => insertAppend m r.1 r.2) []).map (fun kv => kv.1))).map
        (fun c => c ++ "(" ++ String.intercalate ","
          (lookupGrouped ((List.insertionSort pairLe (joinPairs st)).foldl
            (fun m r => insertAppend m r.1 r.2) []) c) ++ ")")) =
    String.intercalate ", "
      ((List.insertionSort strLe ((joinPairs st).map (fun r => r.1)).dedup).map
        (fun c => c ++ "(" ++ String.intercalate ","
          (List.insertionSort strLe
            (((joinPairs st).filter (fun r => r.1 = c)).map (fun r => r.2))) ++ ")"))
  have hperm : List.Perm (List.insertionSort pairLe (joinPairs st)) (joinPairs st) :=
    List.perm_insertionSort pairLe (joinPairs st)
  have hsorted_rows : List.Pairwise pairLe (List.insertionSort pairLe (joinPairs st)) :=
    List.sorted_insertionSort pairLe (joinPairs st)
  set rows := List.insertionSort pairLe (joinPairs st) with hrowsdef
  set catMap := rows.foldl (fun m r => insertAppend m r.1 r.2) [] with hcmdef
  have hnd : (catMap.map (fun kv => kv.1)).Nodup :=
    keys_foldl_nodup rows [] (by simp)
  have hmem : ∀ x, x ∈ catMap.map (fun kv => kv.1) ↔
      x ∈ ((joinPairs st).map (fun r => r.1)).dedup := by
    intro x
    rw [hcmdef, keys_foldl_mem, List.mem_dedup]
    simp only [List.map_nil, List.not_mem_nil, false_or]
    exact (hperm.map (fun r => r.1)).mem_iff
  have hcatperm : List.Perm (catMap.map (fun kv => kv.1))
      ((joinPairs st).map (fun r => r.1)).dedup :=
    (List.perm_ext_iff_of_nodup hnd (List.nodup_dedup _)).mpr hmem
  rw [insertionSort_eq_of_perm strLe hcatperm]
  congr 1
  apply List.map_congr_left
  intro c _
  suffices h : lookupGrouped catMap c =
      List.insertionSort strLe
        (((joinPairs st).filter (fun r => r.1 = c)).map (fun r => r.2)) by
    rw [h]
  have hlk : lookupGrouped catMap c = (rows.filter (fun r => r.1 = c)).map (fun r => r.2) := by
    rw [hcmdef, lookupGrouped_foldl, lookupGrouped_nil, List.nil_append]
  rw [hlk]
  have hsorted_f : List.Pairwise pairLe (rows.filter (fun r => r.1 = c)) :=
    hsorted_rows.filter _
  have hsorted_map : List.Pairwise strLe
      ((rows.filter (fun r => r.1 = c)).map (fun r => r.2)) := by
    rw [List.pairwise_map]
    refine List.Pairwise.imp_of_mem ?_ hsorted_f
    intro a b ha hb hr
    have ha1 : a.1 = c := by simpa using List.of_mem_filter ha
    have hb1 : b.1 = c := by simpa using List.of_mem_filter hb
    rcases hr with hlt | ⟨_, hle⟩
    · rw [ha1, hb1] at hlt
      exact absurd hlt (strLt_irrefl c)
    · exact hle
  have hpermf : List.Perm ((rows.filter (fun r => r.1 = c)).map (fun r => r.2))
      (((joinPairs st).filter (fun r => r.1 = c)).map (fun r => r.2)) :=
    (hperm.filter _).map _
  exact (insertionSort_eq_of_perm_sorted strLe hpermf hsorted_map).symm

/-- `specIndex` only depends on the multiset of (category, skill) name pairs
of the committed state. -/
theorem specIndex_eq_of_perm {st1 st2 : DBState}
    (h : List.Perm (joinPairs st1) (joinPairs st2)) :
    specIndex st1 = specIndex st2 := by
  show String.intercalate ", "
      ((List.insertionSort strLe ((joinPairs st1).map (fun r => r.1)).dedup).map
        (fun c => c ++ "(" ++ String.intercalate ","
          (List.insertionSort strLe
            (((joinPairs st1).filter (fun r => r.1 = c)).map (fun r => r.2))) ++ ")")) =
    String.intercalate ", "
      ((List.insertionSort strLe ((joinPairs st2).map (fun r => r.1)).dedup).map
        (fun c => c ++ "(" ++ String.intercalate ","
          (List.insertionSort strLe
            (((joinPairs st2).filter (fun r => r.1 = c)).map (fun r => r.2))) ++ ")"))
  rw [insertionSort_eq_of_perm strLe ((h.map (fun r => r.1)).dedup)]
  congr 1
  apply List.map_congr_left
  intro c _
  rw [insertionSort_eq_of_perm strLe ((h.filter (fun r => r.1 = c)).map (fun r => r.2))]

/-- Claim C4: `GetIndex` renders the grouped index — categories sorted
alphabetically, skill names sorted inside each category, `", "` between
categories, bare commas between skills, no trailing separator — depending
only on the committed (category, skill) pairs and never on registration
order; on the three test skills it is exactly
`"files(read,write), net(ping)"` for either registration order. -/
theorem C4_index_format_deterministic :
    (∀ st : DBState, GetIndex st = specIndex st) ∧
    (∀ st1 st2 : DBState, List.Perm (joinPairs st1) (joinPairs st2) → GetIndex st1 = GetIndex st2) ∧
    GetIndex stA = "files(read,write), net(ping)" ∧
    GetIndex stB = "files(read,write), net(ping)" := by
  refine ⟨getIndex_eq_specIndex, ?_, by decide, by decide⟩
  intro st1 st2 h
  rw [getIndex_eq_specIndex, getIndex_eq_specIndex]
  exact specIndex_eq_of_perm h

theorem C4_index_format_deterministic_witness : GetIndex stA = GetIndex stB :=
  C4_index_format_deterministic.2.1 stA stB (List.isPerm_iff.mp (by decide))

/-! ### Catalog projection freshness (claim C9) -/

theorem mkParams_encode (sid : Nat) : ∀ (i : Nat) (ps : List ParamIn),
    (mkParams sid i ps).map encodeParam =
      ps.map (fun p => [("n", JField.s p.name), ("t", JField.s p.type),
        ("r", JField.b p.required), ("d", JField.s p.info)])
  | _, [] => rfl
  | i, p :: ps => by
    rw [mkParams, List.map_cons, List.map_cons, mkParams_encode sid (i + 1) ps]
    rfl

theorem mkParams_decode (sid : Nat) : ∀ (i : Nat) (ps : List ParamIn),
    ((mkParams sid i ps).map encodeParam).map decodeParam =
      ps.map (fun p => (⟨p.name, p.type, p.info, p.required⟩ : ParamIn))
  | _, [] => rfl
  | i, p :: ps => by
    rw [mkParams, List.map_cons, List.map_cons, List.map_cons,
      mkParams_decode sid (i + 1) ps]
    rfl

/-- The parameter rows owned by the row `Register` wrote are exactly the
insert loop's rows. -/
theorem Register_row_params (st : DBState) (sk : SkillIn) (hwf : WF st) :
    ∀ row ∈ (Register st sk).skills, row.name = sk.name →
      (Register st sk).params.filter (fun p => p.skillId = row.id) =
        mkParams row.id st.nextParamId sk.parameters := by
  obtain ⟨sid, k, _, _, hfil, _, _, _, hparams, _⟩ := Register_master st sk hwf
  intro row hrow hname
  have hrow_fil : row ∈ (Register st sk).skills.filter (fun s => s.name = sk.name) := by
    rw [List.mem_filter]
    exact ⟨hrow, by simp [hname]⟩
  rw [hfil, List.mem_singleton] at hrow_fil
  rw [hrow_fil]
  show (Register st sk).params.filter (fun p => p.skillId = sid) = _
  rw [hparams, List.filter_append]
  have h1 : (st.params.filter (fun p => ¬ p.skillId = sid)).filter
      (fun p => p.skillId = sid) = [] := by
    rw [List.filter_eq_nil_iff]
    intro x hx
    have := List.of_mem_filter hx
    simpa using this
  have h2 : (mkParams sid st.nextParamId sk.parameters).filter
      (fun p => p.skillId = sid) = mkParams sid st.nextParamId sk.parameters := by
    rw [List.filter_eq_self]
    intro q hq
    simp [mkParams_skillId sid st.nextParamId sk.parameters q hq]
  rw [h1, h2, List.nil_append]

/-- Claim C9: after every successful `Register`, the catalog view's `args`
column for the registered skill is the JSON array of objects carrying exactly
the keys n, t, d, r for the parameters of that last registration — never a
stale set — and decoding it (as `Search` does) yields exactly the registered
parameter list. -/
theorem C9_catalog_projection_fresh (st : DBState) (sk : SkillIn) (hwf : WF st) :
    ∀ row ∈ (Register st sk).skills, row.name = sk.name →
      argsOf (Register st sk) row.id =
        sk.parameters.map (fun p => [("n", JField.s p.name), ("t", JField.s p.type),
          ("r", JField.b p.required), ("d", JField.s p.info)]) ∧
      (∀ o ∈ argsOf (Register st sk) row.id,
        List.Perm (o.map (fun f => f.1)) ["n", "t", "d", "r"]) ∧
      (argsOf (Register st sk) row.id).map decodeParam =
        sk.parameters.map (fun p => (⟨p.name, p.type, p.info, p.required⟩ : ParamIn)) := by
  intro row hrow hname
  have hrp := Register_row_params st sk hwf row hrow hname
  have hargs : argsOf (Register st sk) row.id =
      (mkParams row.id st.nextParamId sk.parameters).map encodeParam := by
    unfold argsOf
    rw [hrp]
  refine ⟨?_, ?_, ?_⟩
  · rw [hargs, mkParams_encode]
  · intro o ho
    rw [hargs] at ho
    obtain ⟨q, _, hq⟩ := List.mem_map.mp ho
    rw [← hq]
    show List.Perm ["n", "t", "r", "d"] ["n", "t", "d", "r"]
    exact List.isPerm_iff.mp (by decide)
  · rw [hargs, mkParams_decode]

theorem C9_catalog_projection_fresh_witness :
    argsOf (Register emptyDB skRead) 1 =
      [[("n", JField.s "path"), ("t", JField.s "string"),
        ("r", JField.b true), ("d", JField.s "File path")]] ∧
    (argsOf (Register emptyDB skRead) 1).map decodeParam =
      [⟨"path", "string", "File path", true⟩] :=
  ⟨(C9_catalog_projection_fresh emptyDB skRead (by decide)
      ⟨1, 1, "read", "Read file content"⟩ (by decide) (by decide)).1,
   (C9_catalog_projection_fresh emptyDB skRead (by decide)
      ⟨1, 1, "read", "Read file content"⟩ (by decide) (by decide)).2.2⟩

end SkillStore
